import Mathlib

/-
Verification of the header database core (eth/db/header.py): header
persistence, cumulative-difficulty scores, canonical-chain bookkeeping and
the reorg algorithm of persist_header_chain / _set_as_canonical_chain_head /
_find_new_ancestors.

Shallow embedding notes.
The backend key-value store is a single byte-keyed map in the source; the
schema module (eth/db/schema.py, not under src/) derives keys that are
collision-free across the four namespaces (raw header hash, score prefix,
block-number prefix, head constant).  Modelled from the spec: the backend is
therefore represented as a record with one typed association list per
namespace, and backend operations are logged in an explicit trace so that
claims about read/write ordering can be stated.  RLP encoding and Keccak
hashing are external collaborators (spec section 1); encoding round-trips are
the identity here and a header carries its (memoized) hash as a field.
Python exceptions become an error type threaded through Except; the
unbounded while-loop of _find_new_ancestors gets an explicit fuel argument,
with exhaustion reported as a distinguished error.
-/

set_option maxHeartbeats 1000000

namespace HeaderDB

/-- A hash is a byte string (list of bytes); 32 bytes for real hashes, but
arbitrary byte strings can be passed to the lookup functions. -/
abbrev Hash := List Nat

/-- Modelled from the spec: eth/constants.py is not under src/; the
conventional parent of genesis is 32 zero bytes. -/
def GENESIS_PARENT_HASH : Hash := List.replicate 32 0

/-- Modelled from the spec: eth/rlp/headers.py is not under src/.  A block
header carries the fields this subsystem reads: parent hash, block number,
difficulty, and its own (Keccak, here memoized) hash. -/
structure BlockHeader where
  parent_hash : Hash
  block_number : Nat
  difficulty : Nat
  hash : Hash
  deriving DecidableEq

/-- The backend key-value store, split by schema namespace (see the header
comment: the SchemaV1 key derivations are collision-free across namespaces,
so the single byte-keyed map is represented as four typed association
lists / an optional head pointer). -/
structure DB where
  headers : List (Hash × BlockHeader)
  scores : List (Hash × Nat)
  canonical : List (Nat × Hash)
  head : Option Hash
  deriving DecidableEq

/-- The empty backend. -/
def emptyDB : DB := ⟨[], [], [], none⟩

/-- Error kinds raised by the source (eth/exceptions.py is not under src/;
kinds are per spec section 7).  outOfFuel is the modelling artifact standing
for non-termination of the unbounded ancestor walk. -/
inductive Err where
  | validationError
  | headerNotFound
  | canonicalHeadNotFound
  | parentNotFound
  | valueError
  | outOfFuel
  deriving DecidableEq

/-- One backend operation, for the read/write trace. -/
inductive DBOp where
  | readHeader (h : Hash)
  | readScore (h : Hash)
  | readCanonical (n : Nat)
  | readHead
  | containsHeader (h : Hash)
  | writeHeader (h : Hash)
  | writeScore (h : Hash)
  | writeCanonical (n : Nat)
  | writeHead
  deriving DecidableEq

deriving instance DecidableEq for Except

/-- Association-list lookup: first entry wins, like a Python dict with the
schema guaranteeing one entry per key. -/
def getAssoc {α β : Type} [DecidableEq α] : List (α × β) → α → Option β
  | [], _ => none
  | (k, v) :: rest, a => if k = a then some v else getAssoc rest a

/-- Association-list update: replace in place, append if absent. -/
def setAssoc {α β : Type} [DecidableEq α] : List (α × β) → α → β → List (α × β)
  | [], k, v => [(k, v)]
  | (k0, v0) :: rest, k, v =>
      if k0 = k then (k, v) :: rest else (k0, v0) :: setAssoc rest k v

/-- Modelled from the spec: eth/validation.py is not under src/; spec 4.C,
get_block_header_by_hash and header_exists validate that the argument is a
32-byte word and fail with ValidationError otherwise. -/
def validate_word (h : Hash) : Except Err Unit :=
  if h.length = 32 then .ok () else .error .validationError

/-- Prepend already-accumulated trace to an operation's result. -/
def withTrace {α : Type} (t : List DBOp) (x : Except Err α × List DBOp) :
    Except Err α × List DBOp :=
  (x.1, t ++ x.2)

/-- HeaderDB.get_block_header_by_hash: validate the word, read the header key,
HeaderNotFound when absent. -/
def get_block_header_by_hash (db : DB) (block_hash : Hash) :
    Except Err BlockHeader × List DBOp :=
  match validate_word block_hash with
  | .error e => (.error e, [])
  | .ok _ =>
    match getAssoc db.headers block_hash with
    | none => (.error .headerNotFound, [DBOp.readHeader block_hash])
    | some hdr => (.ok hdr, [DBOp.readHeader block_hash])

/-- HeaderDB.get_score: read the score key directly (no word validation),
HeaderNotFound when absent. -/
def get_score (db : DB) (block_hash : Hash) : Except Err Nat × List DBOp :=
  match getAssoc db.scores block_hash with
  | none => (.error .headerNotFound, [DBOp.readScore block_hash])
  | some s => (.ok s, [DBOp.readScore block_hash])

/-- HeaderDB.header_exists: validate the word, then report backend presence. -/
def header_exists (db : DB) (block_hash : Hash) : Except Err Bool × List DBOp :=
  match validate_word block_hash with
  | .error e => (.error e, [])
  | .ok _ => (.ok (getAssoc db.headers block_hash).isSome, [DBOp.containsHeader block_hash])

/-- HeaderDB.get_canonical_block_hash: read the number-to-hash key,
HeaderNotFound when absent.  (validate_block_number checks that the argument
is a non-negative integer, trivially satisfied by Nat.) -/
def get_canonical_block_hash (db : DB) (block_number : Nat) :
    Except Err Hash × List DBOp :=
  match getAssoc db.canonical block_number with
  | none => (.error .headerNotFound, [DBOp.readCanonical block_number])
  | some h => (.ok h, [DBOp.readCanonical block_number])

/-- HeaderDB.get_canonical_block_header_by_number: composition of the
canonical-hash lookup with the header fetch. -/
def get_canonical_block_header_by_number (db : DB) (block_number : Nat) :
    Except Err BlockHeader × List DBOp :=
  match get_canonical_block_hash db block_number with
  | (.error e, t) => (.error e, t)
  | (.ok h, t) => withTrace t (get_block_header_by_hash db h)

/-- HeaderDB.get_canonical_head: read the head key (CanonicalHeadNotFound when
unset), then fetch the header by that hash. -/
def get_canonical_head (db : DB) : Except Err BlockHeader × List DBOp :=
  match db.head with
  | none => (.error .canonicalHeadNotFound, [DBOp.readHead])
  | some h => withTrace [DBOp.readHead] (get_block_header_by_hash db h)

/-- HeaderDB._find_new_ancestors: walk parent pointers from the given header,
yielding headers until the first one that is already canonical at its own
number (HeaderNotFound from the canonical lookup is caught and treated as
"not canonical"), stopping after a genesis-parent header.  The source loop is
unbounded; fuel bounds it here. -/
def find_new_ancestors (db : DB) : Nat → BlockHeader → Except Err (List BlockHeader) × List DBOp
  | 0, _ => (.error .outOfFuel, [])
  | fuel + 1, h =>
    match get_canonical_block_header_by_number db h.block_number with
    | (.error .headerNotFound, t1) =>
      withTrace t1
        (if h.parent_hash = GENESIS_PARENT_HASH then (.ok [h], [])
         else
           match get_block_header_by_hash db h.parent_hash with
           | (.error e, t2) => (.error e, t2)
           | (.ok parent, t2) =>
             match find_new_ancestors db fuel parent with
             | (.error e, t3) => (.error e, t2 ++ t3)
             | (.ok rest, t3) => (.ok (h :: rest), t2 ++ t3))
    | (.error e, t1) => (.error e, t1)
    | (.ok orig, t1) =>
      if orig.hash = h.hash then (.ok [], t1)
      else
        withTrace t1
          (if h.parent_hash = GENESIS_PARENT_HASH then (.ok [h], [])
           else
             match get_block_header_by_hash db h.parent_hash with
             | (.error e, t2) => (.error e, t2)
             | (.ok parent, t2) =>
               match find_new_ancestors db fuel parent with
               | (.error e, t3) => (.error e, t2 ++ t3)
               | (.ok rest, t3) => (.ok (h :: rest), t2 ++ t3))

/-- The yield-and-continue tail of one _find_new_ancestors loop iteration
(the code below the try/except: yield h, stop at genesis, else fetch the
parent and continue).  Both non-stopping branches of the loop body reduce to
this continuation. -/
def find_new_ancestors_yield (db : DB) (fuel : Nat) (h : BlockHeader) :
    Except Err (List BlockHeader) × List DBOp :=
  if h.parent_hash = GENESIS_PARENT_HASH then (.ok [h], [])
  else
    match get_block_header_by_hash db h.parent_hash with
    | (.error e, t2) => (.error e, t2)
    | (.ok parent, t2) =>
      match find_new_ancestors db fuel parent with
      | (.error e, t3) => (.error e, t2 ++ t3)
      | (.ok rest, t3) => (.ok (h :: rest), t2 ++ t3)

/-- HeaderDB._add_block_number_to_hash_lookup: write the number-to-hash key. -/
def add_block_number_to_hash_lookup (db : DB) (h : BlockHeader) : DB × List DBOp :=
  ({ db with canonical := setAssoc db.canonical h.block_number h.hash },
   [DBOp.writeCanonical h.block_number])

/-- The displaced-header loop of _set_as_canonical_chain_head: for each newly
canonical header read the old canonical hash at its number (break on
HeaderNotFound), then fetch the old header by that hash. -/
def findDisplaced (db : DB) : List BlockHeader → Except Err (List BlockHeader) × List DBOp
  | [] => (.ok [], [])
  | h :: rest =>
    match get_canonical_block_hash db h.block_number with
    | (.error .headerNotFound, t) => (.ok [], t)
    | (.error e, t) => (.error e, t)
    | (.ok oldHash, t) =>
      match get_block_header_by_hash db oldHash with
      | (.error e, t2) => (.error e, t ++ t2)
      | (.ok oldHdr, t2) =>
        match findDisplaced db rest with
        | (.error e, t3) => (.error e, t ++ t2 ++ t3)
        | (.ok olds, t3) => (.ok (oldHdr :: olds), t ++ t2 ++ t3)

/-- The canonical-mapping write loop of _set_as_canonical_chain_head. -/
def addLookups : DB → List BlockHeader → DB × List DBOp
  | db, [] => (db, [])
  | db, h :: rest =>
    let step := add_block_number_to_hash_lookup db h
    let restStep := addLookups step.1 rest
    (restStep.1, step.2 ++ restStep.2)

/-- HeaderDB._set_as_canonical_chain_head: fetch the header (HeaderNotFound
becomes ValueError), collect and reverse the new ancestors, collect displaced
headers, write the canonical mappings, then write the head key. -/
def set_as_canonical_chain_head (db : DB) (fuel : Nat) (block_hash : Hash) :
    Except Err (List BlockHeader × List BlockHeader) × DB × List DBOp :=
  match get_block_header_by_hash db block_hash with
  | (.error .headerNotFound, t) => (.error .valueError, db, t)
  | (.error e, t) => (.error e, db, t)
  | (.ok header, t) =>
    match find_new_ancestors db fuel header with
    | (.error e, t1) => (.error e, db, t ++ t1)
    | (.ok anc, t1) =>
      let new_canonical_headers := anc.reverse
      match findDisplaced db new_canonical_headers with
      | (.error e, t2) => (.error e, db, t ++ t1 ++ t2)
      | (.ok old_canonical_headers, t2) =>
        let w := addLookups db new_canonical_headers
        let db3 := { w.1 with head := some header.hash }
        (.ok (new_canonical_headers, old_canonical_headers), db3,
         t ++ t1 ++ t2 ++ w.2 ++ [DBOp.writeHead])

/-- The sliding_window(2, headers) contiguity check of persist_header_chain:
every adjacent (parent, child) pair must satisfy child.parent_hash ==
parent.hash, else ValidationError. -/
def checkContiguous : List BlockHeader → Except Err Unit
  | [] => .ok ()
  | [_] => .ok ()
  | parent :: child :: rest =>
    if parent.hash = child.parent_hash then checkContiguous (child :: rest)
    else .error .validationError

/-- The write loop of persist_header_chain: for each header, write the header
key, add its difficulty to the running score, write the score key. -/
def writeLoop (db : DB) (score : Nat) : List BlockHeader → DB × Nat × List DBOp
  | [] => (db, score, [])
  | h :: rest =>
    let db1 : DB := { db with headers := setAssoc db.headers h.hash h }
    let score1 := score + h.difficulty
    let db2 : DB := { db1 with scores := setAssoc db1.scores h.hash score1 }
    let restStep := writeLoop db2 score1 rest
    (restStep.1, restStep.2.1,
     DBOp.writeHeader h.hash :: DBOp.writeScore h.hash :: restStep.2.2)

/-- The tail of persist_header_chain after phases 1-3: run the write loop,
then the head decision (catch CanonicalHeadNotFound and install the tip
unconditionally; otherwise install it only when the accumulated score strictly
exceeds the head score).  t0 is the trace accumulated by phases 2-3. -/
def persistTail (db : DB) (fuel : Nat) (first_header : BlockHeader)
    (rest : List BlockHeader) (seed : Nat) (t0 : List DBOp) :
    Except Err (List BlockHeader × List BlockHeader) × DB × List DBOp :=
  let w := writeLoop db seed (first_header :: rest)
  let db2 := w.1
  let score := w.2.1
  let t1 := w.2.2
  let tip := (first_header :: rest).getLast (List.cons_ne_nil first_header rest)
  match get_canonical_head db2 with
  | (.error .canonicalHeadNotFound, th) =>
    let s := set_as_canonical_chain_head db2 fuel tip.hash
    (s.1, s.2.1, t0 ++ t1 ++ th ++ s.2.2)
  | (.error e, th) => (.error e, db2, t0 ++ t1 ++ th)
  | (.ok headHdr, th) =>
    match get_score db2 headHdr.hash with
    | (.error e, ts) => (.error e, db2, t0 ++ t1 ++ th ++ ts)
    | (.ok head_score, ts) =>
      if head_score < score then
        let s := set_as_canonical_chain_head db2 fuel tip.hash
        (s.1, s.2.1, t0 ++ t1 ++ th ++ ts ++ s.2.2)
      else (.ok ([], []), db2, t0 ++ t1 ++ th ++ ts)

/-- HeaderDB.persist_header_chain: empty input returns ((), ()) untouched;
otherwise validate contiguity, anchor the parent (genesis skips the check,
unknown parent is ParentNotFound), seed the score, then run the write loop
and the head decision. -/
def persist_header_chain (db : DB) (fuel : Nat) (headers : List BlockHeader) :
    Except Err (List BlockHeader × List BlockHeader) × DB × List DBOp :=
  match headers with
  | [] => (.ok ([], []), db, [])
  | first_header :: rest =>
    match checkContiguous (first_header :: rest) with
    | .error e => (.error e, db, [])
    | .ok _ =>
      if first_header.parent_hash = GENESIS_PARENT_HASH then
        persistTail db fuel first_header rest 0 []
      else
        match header_exists db first_header.parent_hash with
        | (.error e, t) => (.error e, db, t)
        | (.ok false, t) => (.error .parentNotFound, db, t)
        | (.ok true, t) =>
          match get_score db first_header.parent_hash with
          | (.error e, t2) => (.error e, db, t ++ t2)
          | (.ok seed, t2) => persistTail db fuel first_header rest seed (t ++ t2)

/-!  Spec-side reference definitions and well-formedness predicates.  -/

/-- Total difficulty of a submitted chain (the score added by the write loop). -/
def totalDifficulty (hs : List BlockHeader) : Nat :=
  (hs.map BlockHeader.difficulty).sum

/-- Contiguity: every adjacent (parent, child) pair links by parent hash. -/
def contiguousChain (hs : List BlockHeader) : Prop :=
  List.Chain' (fun p c => p.hash = c.parent_hash) hs

/-- Every stored header sits at the key equal to its own hash.  In the source
this holds because the header key is the Keccak hash of the stored bytes. -/
def hashKeyed (db : DB) : Prop :=
  ∀ p ∈ db.headers, (p.2).hash = p.1

/-- Stored block numbers increase by one along stored parent links.  In the
source this holds for any validated chain. -/
def numberCoherent (db : DB) : Prop :=
  ∀ p ∈ db.headers, ∀ q ∈ db.headers,
    (p.2).parent_hash = q.1 → (p.2).block_number = (q.2).block_number + 1

/-- A canonical mapping at number n points at a header whose block number is
n (spec section 3, invariant 2). -/
def canonicalNumbered (db : DB) : Prop :=
  ∀ c ∈ db.canonical, ∀ p ∈ db.headers, p.1 = c.2 → (p.2).block_number = c.1

/-- Phases 2-3 of persist_header_chain succeed with score seed: either the
first header is genesis and the seed is zero, or its parent is a stored
32-byte hash whose score is the seed. -/
def anchorOk (db : DB) (h0 : BlockHeader) (seed : Nat) : Prop :=
  (h0.parent_hash = GENESIS_PARENT_HASH ∧ seed = 0) ∨
  (h0.parent_hash ≠ GENESIS_PARENT_HASH ∧ h0.parent_hash.length = 32 ∧
    (getAssoc db.headers h0.parent_hash).isSome = true ∧
    getAssoc db.scores h0.parent_hash = some seed)

/-- Phase 5 takes the install branch on state db2 with tip score s: either no
head is set, or the head is readable and its score is strictly below s. -/
def headWins (db2 : DB) (s : Nat) : Prop :=
  db2.head = none ∨
  ∃ hh hdr sc, db2.head = some hh ∧ hh.length = 32 ∧
    getAssoc db2.headers hh = some hdr ∧ getAssoc db2.scores hdr.hash = some sc ∧ sc < s

/-- Spec-side description of the new-canonical path, following the words of
claim C1: from the tip, collect headers while the canonical hash at the
current block number differs from the current hash (stop, exclusive, when it
matches), include the genesis-parent header and stop if it is reached, and
step to the parent stored in the database.  none models a missing parent or
an unbounded walk. -/
def specNewPath (db : DB) : Nat → BlockHeader → Option (List BlockHeader)
  | 0, _ => none
  | fuel + 1, h =>
    if getAssoc db.canonical h.block_number = some h.hash then some []
    else if h.parent_hash = GENESIS_PARENT_HASH then some [h]
    else
      match getAssoc db.headers h.parent_hash with
      | none => none
      | some parent => (specNewPath db fuel parent).map (fun l => h :: l)

/-- Spec-side description of the displaced list, following the words of claim
C2: iterate the newly canonical headers in order, take the previously
canonical header at the same block number, stop at the first number with no
canonical mapping.  none models a canonical mapping pointing at a missing
header. -/
def specDisplaced (db : DB) : List BlockHeader → Option (List BlockHeader)
  | [] => some []
  | h :: rest =>
    match getAssoc db.canonical h.block_number with
    | none => some []
    | some c =>
      match getAssoc db.headers c with
      | none => none
      | some old => (specDisplaced db rest).map (fun l => old :: l)

/-- The write trace of the per-header loop: header then score, per header. -/
def headerScoreWrites (hs : List BlockHeader) : List DBOp :=
  hs.flatMap (fun h => [DBOp.writeHeader h.hash, DBOp.writeScore h.hash])

/-- Write operations, as opposed to reads and containment probes. -/
def isWrite : DBOp → Bool
  | .writeHeader _ => true
  | .writeScore _ => true
  | .writeCanonical _ => true
  | .writeHead => true
  | _ => false

/-!  Concrete fixtures used by the witnesses (the spec's end-to-end scenario:
genesis G, canonical chain A, B, competing fork A2, B2, C2).  -/

/-- A 32-byte hash filled with one byte value. -/
def hashOf (b : Nat) : Hash := List.replicate 32 b

def hdrG : BlockHeader := ⟨GENESIS_PARENT_HASH, 0, 17, hashOf 1⟩
def hdrA : BlockHeader := ⟨hashOf 1, 1, 20, hashOf 2⟩
def hdrB : BlockHeader := ⟨hashOf 2, 2, 21, hashOf 3⟩
def hdrA2 : BlockHeader := ⟨hashOf 1, 1, 10, hashOf 4⟩
def hdrB2 : BlockHeader := ⟨hashOf 4, 2, 10, hashOf 5⟩
def hdrC2 : BlockHeader := ⟨hashOf 5, 3, 100, hashOf 6⟩
def hdrX : BlockHeader := ⟨hashOf 7, 9, 1, hashOf 8⟩
def hdrZ : BlockHeader := ⟨hashOf 9, 10, 1, hashOf 10⟩
def hdrY : BlockHeader := ⟨hashOf 11, 1, 5, hashOf 12⟩

/-- The database after persisting G, then A, B (spec scenarios 1 and 2). -/
def dbGAB : DB :=
  ⟨[(hashOf 1, hdrG), (hashOf 2, hdrA), (hashOf 3, hdrB)],
   [(hashOf 1, 17), (hashOf 2, 37), (hashOf 3, 58)],
   [(0, hashOf 1), (1, hashOf 2), (2, hashOf 3)],
   some (hashOf 3)⟩

/-- The database after additionally persisting the losing fork A2, B2 (spec
scenario 3): stored but not canonical. -/
def dbFork : DB :=
  ⟨[(hashOf 1, hdrG), (hashOf 2, hdrA), (hashOf 3, hdrB), (hashOf 4, hdrA2),
    (hashOf 5, hdrB2)],
   [(hashOf 1, 17), (hashOf 2, 37), (hashOf 3, 58), (hashOf 4, 27), (hashOf 5, 37)],
   [(0, hashOf 1), (1, hashOf 2), (2, hashOf 3)],
   some (hashOf 3)⟩

/-- The expected reorg outcome of persisting C2 on dbFork (spec scenario 4):
new canonical A2, B2, C2; displaced A, B. -/
def persistWinResultC1 : List BlockHeader × List BlockHeader :=
  ([hdrA2, hdrB2, hdrC2], [hdrA, hdrB])


/-!  Association-list lemmas.  -/

theorem getAssoc_mem {α β : Type} [DecidableEq α] {l : List (α × β)} {a : α} {b : β}
    (h : getAssoc l a = some b) : (a, b) ∈ l := by
  induction l with
  | nil => simp [getAssoc] at h
  | cons p rest ih =>
    obtain ⟨k, v⟩ := p
    by_cases hk : k = a
    · subst hk
      simp [getAssoc] at h
      subst h
      exact List.mem_cons_self _ _
    · simp [getAssoc, hk] at h
      exact List.mem_cons_of_mem _ (ih h)

theorem getAssoc_setAssoc_self {α β : Type} [DecidableEq α] (l : List (α × β)) (k : α) (v : β) :
    getAssoc (setAssoc l k v) k = some v := by
  induction l with
  | nil => simp [setAssoc, getAssoc]
  | cons p rest ih =>
    obtain ⟨k0, v0⟩ := p
    by_cases hk : k0 = k
    · simp [setAssoc, hk, getAssoc]
    · simp [setAssoc, hk, getAssoc, ih]

theorem getAssoc_setAssoc_ne {α β : Type} [DecidableEq α] (l : List (α × β)) {k a : α} (v : β)
    (h : a ≠ k) : getAssoc (setAssoc l k v) a = getAssoc l a := by
  have hka : ¬ k = a := fun hh => h hh.symm
  induction l with
  | nil => simp [setAssoc, getAssoc, hka]
  | cons p rest ih =>
    obtain ⟨k0, v0⟩ := p
    by_cases hk : k0 = k
    · subst hk
      simp [setAssoc, getAssoc, hka]
    · simp only [setAssoc, hk, if_neg hk, getAssoc]
      by_cases ha : k0 = a
      · simp [ha]
      · simp [ha, ih]

theorem mem_setAssoc {α β : Type} [DecidableEq α] {l : List (α × β)} {k : α} {v : β}
    {p : α × β} (h : p ∈ setAssoc l k v) : p = (k, v) ∨ p ∈ l := by
  induction l with
  | nil =>
    simp [setAssoc] at h
    exact Or.inl h
  | cons q rest ih =>
    obtain ⟨k0, v0⟩ := q
    by_cases hk : k0 = k
    · simp [setAssoc, hk] at h
      rcases h with h | h
      · exact Or.inl h
      · exact Or.inr (List.mem_cons_of_mem _ h)
    · simp [setAssoc, hk] at h
      rcases h with h | h
      · exact Or.inr (by simp [h])
      · rcases ih h with h2 | h2
        · exact Or.inl h2
        · exact Or.inr (List.mem_cons_of_mem _ h2)

/-!  Contiguity-check lemmas.  -/

theorem checkContiguous_ok_iff (hs : List BlockHeader) :
    checkContiguous hs = .ok () ↔ contiguousChain hs := by
  induction hs with
  | nil => simp [checkContiguous, contiguousChain]
  | cons a rest ih =>
    cases rest with
    | nil => simp [checkContiguous, contiguousChain]
    | cons b rest2 =>
      by_cases hab : a.hash = b.parent_hash
      · simp [checkContiguous, hab, contiguousChain, List.chain'_cons] at ih ⊢
        exact ih
      · simp [checkContiguous, hab, contiguousChain, List.chain'_cons]

theorem checkContiguous_cases (hs : List BlockHeader) :
    checkContiguous hs = .ok () ∨ checkContiguous hs = .error .validationError := by
  induction hs with
  | nil => simp [checkContiguous]
  | cons a rest ih =>
    cases rest with
    | nil => simp [checkContiguous]
    | cons b rest2 =>
      by_cases hab : a.hash = b.parent_hash
      · simpa [checkContiguous, hab] using ih
      · simp [checkContiguous, hab]

/-!  Write-loop lemmas.  -/

/-- One unfolding step of the write loop, with the intermediate state spelled
out. -/
theorem writeLoop_cons (db : DB) (s : Nat) (h : BlockHeader) (rest : List BlockHeader) :
    writeLoop db s (h :: rest) =
      ((writeLoop ⟨setAssoc db.headers h.hash h, setAssoc db.scores h.hash (s + h.difficulty),
          db.canonical, db.head⟩ (s + h.difficulty) rest).1,
       (writeLoop ⟨setAssoc db.headers h.hash h, setAssoc db.scores h.hash (s + h.difficulty),
          db.canonical, db.head⟩ (s + h.difficulty) rest).2.1,
       DBOp.writeHeader h.hash :: DBOp.writeScore h.hash ::
         (writeLoop ⟨setAssoc db.headers h.hash h, setAssoc db.scores h.hash (s + h.difficulty),
            db.canonical, db.head⟩ (s + h.difficulty) rest).2.2) := rfl

theorem writeLoop_canonical (db : DB) (s : Nat) (hs : List BlockHeader) :
    (writeLoop db s hs).1.canonical = db.canonical := by
  induction hs generalizing db s with
  | nil => simp [writeLoop]
  | cons h rest ih => simp [writeLoop, ih]

theorem writeLoop_head (db : DB) (s : Nat) (hs : List BlockHeader) :
    (writeLoop db s hs).1.head = db.head := by
  induction hs generalizing db s with
  | nil => simp [writeLoop]
  | cons h rest ih => simp [writeLoop, ih]

theorem writeLoop_score (db : DB) (s : Nat) (hs : List BlockHeader) :
    (writeLoop db s hs).2.1 = s + totalDifficulty hs := by
  induction hs generalizing db s with
  | nil => simp [writeLoop, totalDifficulty]
  | cons h rest ih =>
    simp [writeLoop, ih, totalDifficulty]
    omega

theorem writeLoop_trace (db : DB) (s : Nat) (hs : List BlockHeader) :
    (writeLoop db s hs).2.2 = headerScoreWrites hs := by
  induction hs generalizing db s with
  | nil => simp [writeLoop, headerScoreWrites]
  | cons h rest ih => simp [writeLoop, ih, headerScoreWrites]

theorem writeLoop_headers_notin (db : DB) (s : Nat) (hs : List BlockHeader) (x : Hash)
    (hx : x ∉ hs.map BlockHeader.hash) :
    getAssoc (writeLoop db s hs).1.headers x = getAssoc db.headers x := by
  induction hs generalizing db s with
  | nil => simp [writeLoop]
  | cons h rest ih =>
    simp only [List.map_cons, List.mem_cons] at hx
    push_neg at hx
    simp only [writeLoop]
    rw [ih _ _ hx.2]
    exact getAssoc_setAssoc_ne _ _ hx.1

theorem writeLoop_scores_notin (db : DB) (s : Nat) (hs : List BlockHeader) (x : Hash)
    (hx : x ∉ hs.map BlockHeader.hash) :
    getAssoc (writeLoop db s hs).1.scores x = getAssoc db.scores x := by
  induction hs generalizing db s with
  | nil => simp [writeLoop]
  | cons h rest ih =>
    simp only [List.map_cons, List.mem_cons] at hx
    push_neg at hx
    simp only [writeLoop]
    rw [ih _ _ hx.2]
    exact getAssoc_setAssoc_ne _ _ hx.1

theorem writeLoop_getLast (db : DB) (s : Nat) (hs : List BlockHeader) (hne : hs ≠ []) :
    getAssoc (writeLoop db s hs).1.headers (hs.getLast hne).hash = some (hs.getLast hne) := by
  induction hs generalizing db s with
  | nil => exact absurd rfl hne
  | cons h rest ih =>
    cases rest with
    | nil =>
      simp [writeLoop, List.getLast, getAssoc_setAssoc_self]
    | cons b t =>
      have hgl : (h :: b :: t).getLast hne = (b :: t).getLast (List.cons_ne_nil b t) := by
        simp [List.getLast]
      rw [hgl, writeLoop_cons]
      exact ih _ _ (List.cons_ne_nil b t)

theorem writeLoop_mem_lookup (db : DB) (s : Nat) (hs : List BlockHeader)
    (hnd : (hs.map BlockHeader.hash).Nodup) :
    ∀ h ∈ hs, getAssoc (writeLoop db s hs).1.headers h.hash = some h := by
  induction hs generalizing db s with
  | nil => intro h hh; simp at hh
  | cons h0 rest ih =>
    simp only [List.map_cons, List.nodup_cons] at hnd
    intro h hh
    rcases List.mem_cons.mp hh with hh | hh
    · subst hh
      simp only [writeLoop]
      rw [writeLoop_headers_notin _ _ _ _ hnd.1]
      exact getAssoc_setAssoc_self _ _ _
    · simp only [writeLoop]
      exact ih _ _ hnd.2 h hh

theorem writeLoop_scores_at (db : DB) (s : Nat) (hs : List BlockHeader)
    (hnd : (hs.map BlockHeader.hash).Nodup) :
    ∀ i, (hi : i < hs.length) →
      getAssoc (writeLoop db s hs).1.scores (hs.get ⟨i, hi⟩).hash =
        some (s + totalDifficulty (hs.take (i + 1))) := by
  induction hs generalizing db s with
  | nil => intro i hi; simp at hi
  | cons h0 rest ih =>
    simp only [List.map_cons, List.nodup_cons] at hnd
    intro i hi
    cases i with
    | zero =>
      simp only [writeLoop, List.get, List.take, totalDifficulty, List.map_cons,
        List.map_nil, List.sum_cons, List.sum_nil]
      rw [writeLoop_scores_notin _ _ _ _ hnd.1]
      rw [getAssoc_setAssoc_self]
      simp [List.take, totalDifficulty]
    | succ j =>
      have hj : j < rest.length := by simpa using hi
      simp only [writeLoop, List.get]
      rw [ih _ _ hnd.2 j hj]
      simp only [List.take, totalDifficulty, List.map_cons, List.sum_cons]
      congr 1
      omega

theorem writeLoop_hashKeyed (db : DB) (s : Nat) (hs : List BlockHeader)
    (hk : hashKeyed db) : hashKeyed (writeLoop db s hs).1 := by
  induction hs generalizing db s with
  | nil => simpa [writeLoop] using hk
  | cons h rest ih =>
    simp only [writeLoop]
    apply ih
    intro p hp
    rcases mem_setAssoc hp with hp | hp
    · subst hp; rfl
    · exact hk p hp

/-!  Ancestor-walk lemmas.  -/

@[simp]
theorem withTrace_fst {α : Type} (t : List DBOp) (x : Except Err α × List DBOp) :
    (withTrace t x).1 = x.1 := rfl

theorem get_block_header_ok {db : DB} {x : Hash} {hdr : BlockHeader} {t : List DBOp}
    (h : get_block_header_by_hash db x = (.ok hdr, t)) :
    getAssoc db.headers x = some hdr ∧ x.length = 32 := by
  by_cases hl : x.length = 32
  · refine ⟨?_, hl⟩
    simp only [get_block_header_by_hash, validate_word, if_pos hl] at h
    cases hg : getAssoc db.headers x <;> simp [hg] at h
    exact h.1.symm ▸ rfl
  · simp [get_block_header_by_hash, validate_word, hl] at h

theorem get_canonical_ok {db : DB} {n : Nat} {c : Hash} {t : List DBOp}
    (h : get_canonical_block_hash db n = (.ok c, t)) : getAssoc db.canonical n = some c := by
  cases hg : getAssoc db.canonical n <;> simp [get_canonical_block_hash, hg] at h
  exact h.1 ▸ rfl

/-- First component of one walk step: stop with the empty path when the
canonical header at the current number has the current hash, propagate
uncaught errors, and otherwise fall through to the yield continuation. -/
theorem find_succ_fst (db : DB) (fuel : Nat) (h : BlockHeader) :
    (find_new_ancestors db (fuel + 1) h).1 =
      match (get_canonical_block_header_by_number db h.block_number).1 with
      | .error .headerNotFound => (find_new_ancestors_yield db fuel h).1
      | .error e => .error e
      | .ok orig =>
        if orig.hash = h.hash then .ok [] else (find_new_ancestors_yield db fuel h).1 := by
  cases hc : get_canonical_block_header_by_number db h.block_number with
  | mk res t1 =>
    cases res with
    | error e =>
      cases e <;> simp [find_new_ancestors, hc, find_new_ancestors_yield, withTrace]
    | ok orig =>
      by_cases heq : orig.hash = h.hash <;>
        simp [find_new_ancestors, hc, heq, find_new_ancestors_yield, withTrace]

/-- First component of the yield continuation: yield the current header; stop
at a genesis parent, otherwise fetch the parent and continue the walk there. -/
theorem yield_fst (db : DB) (fuel : Nat) (h : BlockHeader) :
    (find_new_ancestors_yield db fuel h).1 =
      if h.parent_hash = GENESIS_PARENT_HASH then .ok [h]
      else
        match (get_block_header_by_hash db h.parent_hash).1 with
        | .error e => .error e
        | .ok parent =>
          match (find_new_ancestors db fuel parent).1 with
          | .error e => .error e
          | .ok rest => .ok (h :: rest) := by
  by_cases hg : h.parent_hash = GENESIS_PARENT_HASH
  · simp [find_new_ancestors_yield, hg]
  · cases hf : get_block_header_by_hash db h.parent_hash with
    | mk res t2 =>
      cases res with
      | error e => simp [find_new_ancestors_yield, hg, hf]
      | ok parent =>
        cases hr : find_new_ancestors db fuel parent with
        | mk res2 t3 =>
          cases res2 <;> simp [find_new_ancestors_yield, hg, hf, hr]

/-- The composed canonical-header lookup, split by what the two underlying
keys hold. -/
theorem canonical_header_fst (db : DB) (n : Nat) :
    (get_canonical_block_header_by_number db n).1 =
      match getAssoc db.canonical n with
      | none => .error .headerNotFound
      | some c => (get_block_header_by_hash db c).1 := by
  cases hg : getAssoc db.canonical n <;>
    simp [get_canonical_block_header_by_number, get_canonical_block_hash, hg]

theorem get_block_header_fst_ok {db : DB} {x : Hash} {hdr : BlockHeader}
    (h : (get_block_header_by_hash db x).1 = .ok hdr) :
    getAssoc db.headers x = some hdr ∧ x.length = 32 := by
  by_cases hl : x.length = 32
  · refine ⟨?_, hl⟩
    simp only [get_block_header_by_hash, validate_word, if_pos hl] at h
    cases hg : getAssoc db.headers x <;> simp [hg] at h
    exact h ▸ rfl
  · simp [get_block_header_by_hash, validate_word, hl] at h

theorem get_block_header_fst_notfound {db : DB} {x : Hash}
    (h : (get_block_header_by_hash db x).1 = .error .headerNotFound) :
    getAssoc db.headers x = none := by
  by_cases hl : x.length = 32
  · simp only [get_block_header_by_hash, validate_word, if_pos hl] at h
    cases hg : getAssoc db.headers x <;> simp [hg] at h
    rfl
  · simp [get_block_header_by_hash, validate_word, hl] at h

/-- If the yield continuation of the walk returns a path, the spec-side
yield expression computes the same path. -/
theorem spec_of_yield (db : DB) (hk : hashKeyed db) (fuel : Nat)
    (ih : ∀ h2 l2, getAssoc db.headers h2.hash = some h2 →
      (find_new_ancestors db fuel h2).1 = .ok l2 → specNewPath db fuel h2 = some l2)
    (h : BlockHeader) (l : List BlockHeader)
    (hy : (find_new_ancestors_yield db fuel h).1 = .ok l) :
    (if h.parent_hash = GENESIS_PARENT_HASH then some [h]
     else
       match getAssoc db.headers h.parent_hash with
       | none => none
       | some parent => (specNewPath db fuel parent).map (fun l2 => h :: l2)) = some l := by
  rw [yield_fst] at hy
  by_cases hg : h.parent_hash = GENESIS_PARENT_HASH
  · rw [if_pos hg] at hy
    rw [if_pos hg]
    simp only [Except.ok.injEq] at hy
    rw [hy]
  · rw [if_neg hg] at hy
    rw [if_neg hg]
    cases hf : (get_block_header_by_hash db h.parent_hash).1 with
    | error e => rw [hf] at hy; simp at hy
    | ok parent =>
      rw [hf] at hy
      simp only [] at hy
      obtain ⟨hlook, -⟩ := get_block_header_fst_ok hf
      cases hr : (find_new_ancestors db fuel parent).1 with
      | error e => rw [hr] at hy; simp at hy
      | ok rest =>
        rw [hr] at hy
        simp only [Except.ok.injEq] at hy
        have hph : parent.hash = h.parent_hash := hk _ (getAssoc_mem hlook)
        have hparent : getAssoc db.headers parent.hash = some parent := by rw [hph]; exact hlook
        rw [hlook]
        show (specNewPath db fuel parent).map (fun l2 => h :: l2) = some l
        rw [ih parent rest hparent hr]
        simp [hy]

/-- On a hash-keyed database, a successful walk computes exactly the
spec-side new-canonical path. -/
theorem find_eq_spec (db : DB) (hk : hashKeyed db) :
    ∀ (fuel : Nat) (h : BlockHeader) (l : List BlockHeader),
      getAssoc db.headers h.hash = some h →
      (find_new_ancestors db fuel h).1 = .ok l →
      specNewPath db fuel h = some l := by
  intro fuel
  induction fuel with
  | zero =>
    intro h l hh hf
    simp [find_new_ancestors] at hf
  | succ fuel ih =>
    intro h l hh hf
    rw [find_succ_fst, canonical_header_fst] at hf
    cases hcan : getAssoc db.canonical h.block_number with
    | none =>
      rw [hcan] at hf
      simp only [] at hf
      have hcne : ¬ getAssoc db.canonical h.block_number = some h.hash := by
        rw [hcan]; simp
      have := spec_of_yield db hk fuel ih h l hf
      rw [specNewPath, if_neg hcne]
      exact this
    | some c =>
      rw [hcan] at hf
      simp only [] at hf
      cases hfc : (get_block_header_by_hash db c).1 with
      | error e =>
        rw [hfc] at hf
        cases e with
        | validationError => simp at hf
        | canonicalHeadNotFound => simp at hf
        | parentNotFound => simp at hf
        | valueError => simp at hf
        | outOfFuel => simp at hf
        | headerNotFound =>
          simp only [] at hf
          have hcnone : getAssoc db.headers c = none := get_block_header_fst_notfound hfc
          have hcne : ¬ getAssoc db.canonical h.block_number = some h.hash := by
            rw [hcan]
            intro hch
            simp only [Option.some.injEq] at hch
            rw [hch] at hcnone
            rw [hh] at hcnone
            exact Option.noConfusion hcnone
          have := spec_of_yield db hk fuel ih h l hf
          rw [specNewPath, if_neg hcne]
          exact this
      | ok orig =>
        rw [hfc] at hf
        simp only [] at hf
        obtain ⟨horig, -⟩ := get_block_header_fst_ok hfc
        have hoc : orig.hash = c := hk _ (getAssoc_mem horig)
        by_cases heq : orig.hash = h.hash
        · rw [if_pos heq] at hf
          simp only [Except.ok.injEq] at hf
          have hce : getAssoc db.canonical h.block_number = some h.hash := by
            rw [hcan, ← heq, hoc]
          rw [specNewPath, if_pos hce, ← hf]
        · rw [if_neg heq] at hf
          have hcne : ¬ getAssoc db.canonical h.block_number = some h.hash := by
            rw [hcan]
            intro hch
            simp only [Option.some.injEq] at hch
            exact heq (by rw [hoc, hch])
          have := spec_of_yield db hk fuel ih h l hf
          rw [specNewPath, if_neg hcne]
          exact this

/-- A successful walk result is empty or starts with the header it was
started from. -/
theorem find_head (db : DB) (fuel : Nat) (h : BlockHeader) (l : List BlockHeader)
    (hf : (find_new_ancestors db fuel h).1 = .ok l) : l = [] ∨ ∃ l2, l = h :: l2 := by
  cases fuel with
  | zero => simp [find_new_ancestors] at hf
  | succ fuel =>
    rw [find_succ_fst] at hf
    cases hc : (get_canonical_block_header_by_number db h.block_number).1 with
    | error e =>
      rw [hc] at hf
      cases e with
      | validationError => simp at hf
      | canonicalHeadNotFound => simp at hf
      | parentNotFound => simp at hf
      | valueError => simp at hf
      | outOfFuel => simp at hf
      | headerNotFound =>
        simp only [] at hf
        rw [yield_fst] at hf
        by_cases hg : h.parent_hash = GENESIS_PARENT_HASH
        · rw [if_pos hg] at hf
          simp only [Except.ok.injEq] at hf
          exact Or.inr ⟨[], hf.symm⟩
        · rw [if_neg hg] at hf
          cases hfp : (get_block_header_by_hash db h.parent_hash).1 with
          | error e2 => rw [hfp] at hf; simp at hf
          | ok parent =>
            rw [hfp] at hf
            simp only [] at hf
            cases hr : (find_new_ancestors db fuel parent).1 with
            | error e2 => rw [hr] at hf; simp at hf
            | ok rest =>
              rw [hr] at hf
              simp only [Except.ok.injEq] at hf
              exact Or.inr ⟨rest, hf.symm⟩
    | ok orig =>
      rw [hc] at hf
      simp only [] at hf
      by_cases heq : orig.hash = h.hash
      · rw [if_pos heq] at hf
        simp only [Except.ok.injEq] at hf
        exact Or.inl hf.symm
      · rw [if_neg heq, yield_fst] at hf
        by_cases hg : h.parent_hash = GENESIS_PARENT_HASH
        · rw [if_pos hg] at hf
          simp only [Except.ok.injEq] at hf
          exact Or.inr ⟨[], hf.symm⟩
        · rw [if_neg hg] at hf
          cases hfp : (get_block_header_by_hash db h.parent_hash).1 with
          | error e2 => rw [hfp] at hf; simp at hf
          | ok parent =>
            rw [hfp] at hf
            simp only [] at hf
            cases hr : (find_new_ancestors db fuel parent).1 with
            | error e2 => rw [hr] at hf; simp at hf
            | ok rest =>
              rw [hr] at hf
              simp only [Except.ok.injEq] at hf
              exact Or.inr ⟨rest, hf.symm⟩

/-- If the yield continuation returns a path on a hash-keyed,
number-coherent database, block numbers decrease by one along it. -/
theorem chain_of_yield (db : DB) (hk : hashKeyed db) (hnum : numberCoherent db) (fuel : Nat)
    (ih : ∀ h2 l2, getAssoc db.headers h2.hash = some h2 →
      (find_new_ancestors db fuel h2).1 = .ok l2 →
      List.Chain' (fun a b => a.block_number = b.block_number + 1) l2)
    (h : BlockHeader) (l : List BlockHeader)
    (hh : getAssoc db.headers h.hash = some h)
    (hy : (find_new_ancestors_yield db fuel h).1 = .ok l) :
    List.Chain' (fun a b => a.block_number = b.block_number + 1) l := by
  rw [yield_fst] at hy
  by_cases hg : h.parent_hash = GENESIS_PARENT_HASH
  · rw [if_pos hg] at hy
    simp only [Except.ok.injEq] at hy
    rw [← hy]
    simp
  · rw [if_neg hg] at hy
    cases hfp : (get_block_header_by_hash db h.parent_hash).1 with
    | error e => rw [hfp] at hy; simp at hy
    | ok parent =>
      rw [hfp] at hy
      simp only [] at hy
      cases hr : (find_new_ancestors db fuel parent).1 with
      | error e => rw [hr] at hy; simp at hy
      | ok rest =>
        rw [hr] at hy
        simp only [Except.ok.injEq] at hy
        obtain ⟨hlook, -⟩ := get_block_header_fst_ok hfp
        have hrel : h.block_number = parent.block_number + 1 :=
          hnum _ (getAssoc_mem hh) _ (getAssoc_mem hlook) rfl
        have hph : parent.hash = h.parent_hash := hk _ (getAssoc_mem hlook)
        have hparent : getAssoc db.headers parent.hash = some parent := by
          rw [hph]; exact hlook
        have hchain := ih parent rest hparent hr
        rw [← hy]
        rw [List.chain'_cons']
        refine ⟨?_, hchain⟩
        intro b hb
        rcases find_head db fuel parent rest hr with hr0 | ⟨l2, hr1⟩
        · rw [hr0] at hb; simp at hb
        · rw [hr1] at hb
          simp only [List.head?_cons, Option.mem_def, Option.some.injEq] at hb
          rw [← hb]
          exact hrel

/-- On a hash-keyed, number-coherent database a successful walk produces a
path whose block numbers strictly decrease (by exactly one) from head to
tail. -/
theorem find_chain (db : DB) (hk : hashKeyed db) (hnum : numberCoherent db) :
    ∀ (fuel : Nat) (h : BlockHeader) (l : List BlockHeader),
      getAssoc db.headers h.hash = some h →
      (find_new_ancestors db fuel h).1 = .ok l →
      List.Chain' (fun a b => a.block_number = b.block_number + 1) l := by
  intro fuel
  induction fuel with
  | zero =>
    intro h l hh hf
    simp [find_new_ancestors] at hf
  | succ fuel ih =>
    intro h l hh hf
    rw [find_succ_fst] at hf
    cases hc : (get_canonical_block_header_by_number db h.block_number).1 with
    | error e =>
      rw [hc] at hf
      cases e with
      | validationError => simp at hf
      | canonicalHeadNotFound => simp at hf
      | parentNotFound => simp at hf
      | valueError => simp at hf
      | outOfFuel => simp at hf
      | headerNotFound =>
        simp only [] at hf
        exact chain_of_yield db hk hnum fuel ih h l hh hf
    | ok orig =>
      rw [hc] at hf
      simp only [] at hf
      by_cases heq : orig.hash = h.hash
      · rw [if_pos heq] at hf
        simp only [Except.ok.injEq] at hf
        rw [← hf]
        simp
      · rw [if_neg heq] at hf
        exact chain_of_yield db hk hnum fuel ih h l hh hf

/-!  Canonical-switch lemmas.  -/

theorem addLookups_headers (db : DB) (hs : List BlockHeader) :
    (addLookups db hs).1.headers = db.headers := by
  induction hs generalizing db with
  | nil => simp [addLookups]
  | cons h rest ih => simp [addLookups, add_block_number_to_hash_lookup, ih]

theorem addLookups_scores (db : DB) (hs : List BlockHeader) :
    (addLookups db hs).1.scores = db.scores := by
  induction hs generalizing db with
  | nil => simp [addLookups]
  | cons h rest ih => simp [addLookups, add_block_number_to_hash_lookup, ih]

theorem addLookups_head (db : DB) (hs : List BlockHeader) :
    (addLookups db hs).1.head = db.head := by
  induction hs generalizing db with
  | nil => simp [addLookups]
  | cons h rest ih => simp [addLookups, add_block_number_to_hash_lookup, ih]

theorem addLookups_trace (db : DB) (hs : List BlockHeader) :
    (addLookups db hs).2 = hs.map (fun h => DBOp.writeCanonical h.block_number) := by
  induction hs generalizing db with
  | nil => simp [addLookups]
  | cons h rest ih => simp [addLookups, add_block_number_to_hash_lookup, ih]

/-- First component of the displaced-header loop, split by what the keys
hold. -/
theorem findDisplaced_cons_fst (db : DB) (h : BlockHeader) (rest : List BlockHeader) :
    (findDisplaced db (h :: rest)).1 =
      match getAssoc db.canonical h.block_number with
      | none => .ok []
      | some c =>
        match (get_block_header_by_hash db c).1 with
        | .error e => .error e
        | .ok oldHdr =>
          match (findDisplaced db rest).1 with
          | .error e => .error e
          | .ok olds => .ok (oldHdr :: olds) := by
  cases hg : getAssoc db.canonical h.block_number with
  | none => simp [findDisplaced, get_canonical_block_hash, hg]
  | some c =>
    cases hfc : get_block_header_by_hash db c with
    | mk res t2 =>
      cases res with
      | error e => simp [findDisplaced, get_canonical_block_hash, hg, hfc]
      | ok oldHdr =>
        cases hr : findDisplaced db rest with
        | mk res2 t3 =>
          cases res2 <;> simp [findDisplaced, get_canonical_block_hash, hg, hfc, hr]

/-- A successful displaced-header loop computes exactly the spec-side
displaced list. -/
theorem findDisplaced_eq_spec (db : DB) :
    ∀ (hs : List BlockHeader) (l : List BlockHeader),
      (findDisplaced db hs).1 = .ok l → specDisplaced db hs = some l := by
  intro hs
  induction hs with
  | nil =>
    intro l hf
    simp only [findDisplaced, Except.ok.injEq] at hf
    simp [specDisplaced, hf]
  | cons h rest ih =>
    intro l hf
    rw [findDisplaced_cons_fst] at hf
    cases hg : getAssoc db.canonical h.block_number with
    | none =>
      rw [hg] at hf
      simp only [Except.ok.injEq] at hf
      simp [specDisplaced, hg, hf]
    | some c =>
      rw [hg] at hf
      simp only [] at hf
      cases hfc : (get_block_header_by_hash db c).1 with
      | error e => rw [hfc] at hf; simp at hf
      | ok oldHdr =>
        rw [hfc] at hf
        simp only [] at hf
        cases hr : (findDisplaced db rest).1 with
        | error e => rw [hr] at hf; simp at hf
        | ok olds =>
          rw [hr] at hf
          simp only [Except.ok.injEq] at hf
          obtain ⟨hlook, -⟩ := get_block_header_fst_ok hfc
          rw [specDisplaced, hg]
          show (match getAssoc db.headers c with
            | none => none
            | some old => (specDisplaced db rest).map (fun l2 => old :: l2)) = some l
          rw [hlook]
          show (specDisplaced db rest).map (fun l2 => oldHdr :: l2) = some l
          rw [ih olds hr]
          simp [hf]

/-- The displaced list is never longer than the newly canonical list. -/
theorem findDisplaced_len (db : DB) :
    ∀ (hs : List BlockHeader) (l : List BlockHeader),
      (findDisplaced db hs).1 = .ok l → l.length ≤ hs.length := by
  intro hs
  induction hs with
  | nil =>
    intro l hf
    simp only [findDisplaced, Except.ok.injEq] at hf
    simp [← hf]
  | cons h rest ih =>
    intro l hf
    rw [findDisplaced_cons_fst] at hf
    cases hg : getAssoc db.canonical h.block_number with
    | none =>
      rw [hg] at hf
      simp only [Except.ok.injEq] at hf
      simp [← hf]
    | some c =>
      rw [hg] at hf
      simp only [] at hf
      cases hfc : (get_block_header_by_hash db c).1 with
      | error e => rw [hfc] at hf; simp at hf
      | ok oldHdr =>
        rw [hfc] at hf
        simp only [] at hf
        cases hr : (findDisplaced db rest).1 with
        | error e => rw [hr] at hf; simp at hf
        | ok olds =>
          rw [hr] at hf
          simp only [Except.ok.injEq] at hf
          rw [← hf]
          simpa using ih olds hr

/-- On a database whose canonical mappings point at headers carrying the
mapped number, each displaced header carries the block number of the
corresponding newly canonical header. -/
theorem findDisplaced_numbers (db : DB) (hcn : canonicalNumbered db) :
    ∀ (hs : List BlockHeader) (l : List BlockHeader),
      (findDisplaced db hs).1 = .ok l →
      ∀ i, (hi : i < l.length) → (hi2 : i < hs.length) →
        (l.get ⟨i, hi⟩).block_number = (hs.get ⟨i, hi2⟩).block_number := by
  intro hs
  induction hs with
  | nil =>
    intro l hf i hi hi2
    simp at hi2
  | cons h rest ih =>
    intro l hf i hi hi2
    rw [findDisplaced_cons_fst] at hf
    cases hg : getAssoc db.canonical h.block_number with
    | none =>
      rw [hg] at hf
      simp only [Except.ok.injEq] at hf
      subst hf
      simp at hi
    | some c =>
      rw [hg] at hf
      simp only [] at hf
      cases hfc : (get_block_header_by_hash db c).1 with
      | error e => rw [hfc] at hf; simp at hf
      | ok oldHdr =>
        rw [hfc] at hf
        simp only [] at hf
        cases hr : (findDisplaced db rest).1 with
        | error e => rw [hr] at hf; simp at hf
        | ok olds =>
          rw [hr] at hf
          simp only [Except.ok.injEq] at hf
          subst hf
          obtain ⟨hlook, -⟩ := get_block_header_fst_ok hfc
          cases i with
          | zero =>
            simp only [List.get]
            exact hcn _ (getAssoc_mem hg) _ (getAssoc_mem hlook) rfl
          | succ j =>
            simp only [List.get]
            exact ih olds hr j (by simpa using hi) (by simpa using hi2)

/-- Full characterization of a successful canonical switch: the header was
fetched, the walk succeeded, the result is the reversed walk paired with the
displaced loop's output, the head points at the fetched header's hash, and
headers and scores are untouched. -/
theorem switch_ok {db : DB} {fuel : Nat} {x : Hash} {r : List BlockHeader × List BlockHeader}
    {db3 : DB} {t : List DBOp}
    (h : set_as_canonical_chain_head db fuel x = (.ok r, db3, t)) :
    ∃ hdr anc,
      (get_block_header_by_hash db x).1 = .ok hdr ∧
      (find_new_ancestors db fuel hdr).1 = .ok anc ∧
      r.1 = anc.reverse ∧
      (findDisplaced db anc.reverse).1 = .ok r.2 ∧
      db3.head = some hdr.hash ∧
      db3.headers = db.headers ∧
      db3.scores = db.scores ∧
      db3.canonical = (addLookups db anc.reverse).1.canonical := by
  cases hfetch : get_block_header_by_hash db x with
  | mk res t0 =>
    cases res with
    | error e =>
      cases e <;> simp [set_as_canonical_chain_head, hfetch] at h
    | ok hdr =>
      cases hw : find_new_ancestors db fuel hdr with
      | mk res1 t1 =>
        cases res1 with
        | error e => simp [set_as_canonical_chain_head, hfetch, hw] at h
        | ok anc =>
          cases hd : findDisplaced db anc.reverse with
          | mk res2 t2 =>
            cases res2 with
            | error e => simp [set_as_canonical_chain_head, hfetch, hw, hd] at h
            | ok olds =>
              simp only [set_as_canonical_chain_head, hfetch, hw, hd, Prod.mk.injEq,
                Except.ok.injEq] at h
              obtain ⟨hr, hdb3, -⟩ := h
              refine ⟨hdr, anc, by simp [hfetch], by simp [hw], ?_, ?_, ?_, ?_, ?_, ?_⟩
              · rw [← hr]
              · rw [← hr]
                simp [hd]
              · rw [← hdb3]
              · rw [← hdb3]
                exact addLookups_headers db anc.reverse
              · rw [← hdb3]
                exact addLookups_scores db anc.reverse
              · rw [← hdb3]

/-- Failed or successful, a canonical switch never changes headers or
scores. -/
theorem switch_preserves (db : DB) (fuel : Nat) (x : Hash) :
    (set_as_canonical_chain_head db fuel x).2.1.headers = db.headers ∧
    (set_as_canonical_chain_head db fuel x).2.1.scores = db.scores := by
  cases hfetch : get_block_header_by_hash db x with
  | mk res t0 =>
    cases res with
    | error e =>
      cases e <;> simp [set_as_canonical_chain_head, hfetch]
    | ok hdr =>
      cases hw : find_new_ancestors db fuel hdr with
      | mk res1 t1 =>
        cases res1 with
        | error e => simp [set_as_canonical_chain_head, hfetch, hw]
        | ok anc =>
          cases hd : findDisplaced db anc.reverse with
          | mk res2 t2 =>
            cases res2 with
            | error e => simp [set_as_canonical_chain_head, hfetch, hw, hd]
            | ok olds =>
              simp [set_as_canonical_chain_head, hfetch, hw, hd,
                addLookups_headers, addLookups_scores]

/-- When phases 1-3 of persist_header_chain pass (contiguity holds and the
anchor yields the seed), the call reduces to the write loop plus head
decision. -/
theorem persist_anchored (db : DB) (fuel : Nat) (h0 : BlockHeader) (rest : List BlockHeader)
    (seed : Nat) (hcont : checkContiguous (h0 :: rest) = .ok ()) (hanch : anchorOk db h0 seed) :
    ∃ t0, persist_header_chain db fuel (h0 :: rest) = persistTail db fuel h0 rest seed t0 := by
  rcases hanch with ⟨hg, hseed⟩ | ⟨hg, hlen, hsome, hsc⟩
  · subst hseed
    exact ⟨[], by simp [persist_header_chain, hcont, hg]⟩
  · refine ⟨[DBOp.containsHeader h0.parent_hash, DBOp.readScore h0.parent_hash], ?_⟩
    simp [persist_header_chain, hcont, hg, header_exists, validate_word, hlen, hsome,
      get_score, hsc]

/-- When the head decision goes in favor of the submitted tip (no head, or
head score strictly below the accumulated tip score), persist reduces to the
canonical switch on the post-write state at the tip's hash. -/
theorem persistTail_wins (db : DB) (fuel : Nat) (h0 : BlockHeader) (rest : List BlockHeader)
    (seed : Nat) (t0 : List DBOp)
    (hwin : headWins (writeLoop db seed (h0 :: rest)).1 (seed + totalDifficulty (h0 :: rest))) :
    (persistTail db fuel h0 rest seed t0).1 =
      (set_as_canonical_chain_head (writeLoop db seed (h0 :: rest)).1 fuel
        ((h0 :: rest).getLast (List.cons_ne_nil h0 rest)).hash).1 ∧
    (persistTail db fuel h0 rest seed t0).2.1 =
      (set_as_canonical_chain_head (writeLoop db seed (h0 :: rest)).1 fuel
        ((h0 :: rest).getLast (List.cons_ne_nil h0 rest)).hash).2.1 := by
  rcases hwin with hnone | ⟨hh, hdr, sc, hhead, hlen, hlook, hsc, hlt⟩
  · have hch : get_canonical_head (writeLoop db seed (h0 :: rest)).1 =
        (.error .canonicalHeadNotFound, [DBOp.readHead]) := by
      simp [get_canonical_head, hnone]
    constructor <;> simp [persistTail, hch]
  · have hch : get_canonical_head (writeLoop db seed (h0 :: rest)).1 =
        (.ok hdr, [DBOp.readHead, DBOp.readHeader hh]) := by
      simp [get_canonical_head, hhead, get_block_header_by_hash, validate_word, hlen, hlook,
        withTrace]
    have hgs : get_score (writeLoop db seed (h0 :: rest)).1 hdr.hash =
        (.ok sc, [DBOp.readScore hdr.hash]) := by
      simp [get_score, hsc]
    have hsl : sc < (writeLoop db seed (h0 :: rest)).2.1 := by
      rw [writeLoop_score]; exact hlt
    constructor <;> simp [persistTail, hch, hgs, hsl]

/-- When a head exists and its score is at least the accumulated tip score,
persist returns two empty tuples and leaves the state at the post-write
state. -/
theorem persistTail_loses (db : DB) (fuel : Nat) (h0 : BlockHeader) (rest : List BlockHeader)
    (seed : Nat) (t0 : List DBOp) (hh : Hash) (hdr : BlockHeader) (sc : Nat)
    (hhead : (writeLoop db seed (h0 :: rest)).1.head = some hh)
    (hlen : hh.length = 32)
    (hlook : getAssoc (writeLoop db seed (h0 :: rest)).1.headers hh = some hdr)
    (hsc : getAssoc (writeLoop db seed (h0 :: rest)).1.scores hdr.hash = some sc)
    (hge : ¬ sc < seed + totalDifficulty (h0 :: rest)) :
    (persistTail db fuel h0 rest seed t0).1 = .ok ([], []) ∧
    (persistTail db fuel h0 rest seed t0).2.1 = (writeLoop db seed (h0 :: rest)).1 := by
  have hch : get_canonical_head (writeLoop db seed (h0 :: rest)).1 =
      (.ok hdr, [DBOp.readHead, DBOp.readHeader hh]) := by
    simp [get_canonical_head, hhead, get_block_header_by_hash, validate_word, hlen, hlook,
      withTrace]
  have hgs : get_score (writeLoop db seed (h0 :: rest)).1 hdr.hash =
      (.ok sc, [DBOp.readScore hdr.hash]) := by
    simp [get_score, hsc]
  have hsl : ¬ sc < (writeLoop db seed (h0 :: rest)).2.1 := by
    rw [writeLoop_score]; exact hge
  constructor <;> simp [persistTail, hch, hgs, hsl]

/-!  The claims.  -/

/-- Claim C6: persist_header_chain applied to an empty sequence of headers
returns the pair of two empty tuples, leaves the database exactly as it was,
and performs no backend reads or writes (the operation trace is empty). -/
theorem headerdb_C6 (db : DB) (fuel : Nat) :
    persist_header_chain db fuel [] = (.ok ([], []), db, []) := rfl

/-- Claim C9: get_score performs no validation of its argument: any byte
string (of any length) with no stored score entry yields HeaderNotFound from
a direct backend read, while get_block_header_by_hash and header_exists
reject a non-32-byte argument with ValidationError before touching the
backend (their operation trace is empty). -/
theorem headerdb_C9 (db : DB) (b : Hash) :
    (getAssoc db.scores b = none →
      get_score db b = (.error .headerNotFound, [DBOp.readScore b])) ∧
    (b.length ≠ 32 →
      get_block_header_by_hash db b = (.error .validationError, []) ∧
      header_exists db b = (.error .validationError, [])) := by
  constructor
  · intro hmiss
    simp [get_score, hmiss]
  · intro hlen
    constructor <;> simp [get_block_header_by_hash, header_exists, validate_word, hlen]

theorem headerdb_C9_witness :
    get_score emptyDB [0, 1, 2] = (.error .headerNotFound, [DBOp.readScore [0, 1, 2]]) ∧
    get_block_header_by_hash emptyDB [0, 1, 2] = (.error .validationError, []) ∧
    header_exists emptyDB [0, 1, 2] = (.error .validationError, []) :=
  ⟨(headerdb_C9 emptyDB [0, 1, 2]).1 (by decide),
   ((headerdb_C9 emptyDB [0, 1, 2]).2 (by decide)).1,
   ((headerdb_C9 emptyDB [0, 1, 2]).2 (by decide)).2⟩

/-- Claim C10: in the new-ancestor walk, a block number whose canonical
mapping points at a 32-byte hash with no stored header is treated exactly
like a block number with no canonical mapping: both reduce the loop step to
the same yield-and-continue continuation (the caught HeaderNotFound), which
yields the current header and, when its parent is not the genesis hash,
continues the walk at the stored parent. -/
theorem headerdb_C10 (db : DB) (fuel : Nat) (h : BlockHeader) (c : Hash) :
    (getAssoc db.canonical h.block_number = some c → c.length = 32 →
      getAssoc db.headers c = none →
      (find_new_ancestors db (fuel + 1) h).1 = (find_new_ancestors_yield db fuel h).1) ∧
    (getAssoc db.canonical h.block_number = none →
      (find_new_ancestors db (fuel + 1) h).1 = (find_new_ancestors_yield db fuel h).1) ∧
    (h.parent_hash ≠ GENESIS_PARENT_HASH → h.parent_hash.length = 32 →
      ∀ p, getAssoc db.headers h.parent_hash = some p →
      (find_new_ancestors_yield db fuel h).1 =
        (match (find_new_ancestors db fuel p).1 with
         | .error e => .error e
         | .ok rest => .ok (h :: rest))) := by
  refine ⟨?_, ?_, ?_⟩
  · intro hc hlen hmiss
    rw [find_succ_fst, canonical_header_fst, hc]
    have hnf : (get_block_header_by_hash db c).1 = .error .headerNotFound := by
      simp [get_block_header_by_hash, validate_word, hlen, hmiss]
    simp only []
    rw [hnf]
  · intro hc
    rw [find_succ_fst, canonical_header_fst, hc]
  · intro hg hlen p hp
    rw [yield_fst, if_neg hg]
    have hok : (get_block_header_by_hash db h.parent_hash).1 = .ok p := by
      simp [get_block_header_by_hash, validate_word, hlen, hp]
    rw [hok]

theorem headerdb_C10_witness :
    (find_new_ancestors
        ⟨[(hashOf 13, ⟨hashOf 15, 5, 1, hashOf 13⟩)], [], [(5, hashOf 14)], none⟩ 3
        ⟨hashOf 15, 5, 1, hashOf 13⟩).1 =
      (find_new_ancestors_yield
        ⟨[(hashOf 13, ⟨hashOf 15, 5, 1, hashOf 13⟩)], [], [(5, hashOf 14)], none⟩ 2
        ⟨hashOf 15, 5, 1, hashOf 13⟩).1 :=
  (headerdb_C10 ⟨[(hashOf 13, ⟨hashOf 15, 5, 1, hashOf 13⟩)], [], [(5, hashOf 14)], none⟩
    2 ⟨hashOf 15, 5, 1, hashOf 13⟩ (hashOf 14)).1 (by decide) (by decide) (by decide)

/-- Claim C5: a non-contiguous input fails with ValidationError and a
contiguous input whose first header has a non-genesis unknown parent fails
with ParentNotFound; in both failure cases the database is returned exactly
as it was and the operation trace contains no write (it is empty,
respectively one containment probe). -/
theorem headerdb_C5 (db : DB) (fuel : Nat) (hs : List BlockHeader)
    (h0 : BlockHeader) (rest : List BlockHeader) :
    (¬ contiguousChain hs →
      persist_header_chain db fuel hs = (.error .validationError, db, [])) ∧
    (hs = h0 :: rest → contiguousChain hs → h0.parent_hash ≠ GENESIS_PARENT_HASH →
      h0.parent_hash.length = 32 → getAssoc db.headers h0.parent_hash = none →
      persist_header_chain db fuel hs =
        (.error .parentNotFound, db, [DBOp.containsHeader h0.parent_hash])) := by
  constructor
  · intro hnc
    have hck : checkContiguous hs = .error .validationError := by
      rcases checkContiguous_cases hs with hok | herr
      · exact absurd ((checkContiguous_ok_iff hs).mp hok) hnc
      · exact herr
    cases hs with
    | nil => exact absurd (by simp [contiguousChain]) hnc
    | cons a t => simp [persist_header_chain, hck]
  · intro hhs hc hg hlen hmiss
    subst hhs
    have hck : checkContiguous (h0 :: rest) = .ok () := (checkContiguous_ok_iff _).mpr hc
    simp [persist_header_chain, hck, hg, header_exists, validate_word, hlen, hmiss]

theorem headerdb_C5_witness :
    persist_header_chain dbGAB 5 [hdrX, hdrZ] = (.error .validationError, dbGAB, []) ∧
    persist_header_chain dbGAB 5 [hdrY] =
      (.error .parentNotFound, dbGAB, [DBOp.containsHeader hdrY.parent_hash]) :=
  ⟨(headerdb_C5 dbGAB 5 [hdrX, hdrZ] hdrX [hdrZ]).1
      (fun hch => absurd (List.chain'_cons.mp hch).1 (by decide)),
   (headerdb_C5 dbGAB 5 [hdrY] hdrY []).2 rfl
      (by show List.Chain' (fun p c => p.hash = c.parent_hash) [hdrY]; simp)
      (by decide) (by decide) (by decide)⟩

/-- Claim C3: on a non-empty valid chain whose accumulated tip score does not
strictly exceed the existing head's score, persist_header_chain returns
((), ()), every canonical number-to-hash mapping and the head pointer are
unchanged, and yet every submitted header and its score are written and
remain readable by hash. -/
theorem headerdb_C3 (db : DB) (fuel : Nat) (h0 : BlockHeader) (rest : List BlockHeader)
    (seed : Nat) (hh : Hash) (headHdr : BlockHeader) (head_score : Nat)
    (hcont : contiguousChain (h0 :: rest))
    (hanch : anchorOk db h0 seed)
    (hnd : ((h0 :: rest).map BlockHeader.hash).Nodup)
    (hhead : db.head = some hh)
    (hlen : hh.length = 32)
    (hhdr : getAssoc db.headers hh = some headHdr)
    (hnotin1 : hh ∉ (h0 :: rest).map BlockHeader.hash)
    (hnotin2 : headHdr.hash ∉ (h0 :: rest).map BlockHeader.hash)
    (hsc : getAssoc db.scores headHdr.hash = some head_score)
    (hlose : seed + totalDifficulty (h0 :: rest) ≤ head_score) :
    (persist_header_chain db fuel (h0 :: rest)).1 = .ok ([], []) ∧
    (persist_header_chain db fuel (h0 :: rest)).2.1.canonical = db.canonical ∧
    (persist_header_chain db fuel (h0 :: rest)).2.1.head = db.head ∧
    (∀ h ∈ (h0 :: rest),
      getAssoc (persist_header_chain db fuel (h0 :: rest)).2.1.headers h.hash = some h ∧
      (getAssoc (persist_header_chain db fuel (h0 :: rest)).2.1.scores h.hash).isSome = true) := by
  obtain ⟨t0, hP⟩ :=
    persist_anchored db fuel h0 rest seed ((checkContiguous_ok_iff _).mpr hcont) hanch
  have hhead2 : (writeLoop db seed (h0 :: rest)).1.head = some hh := by
    rw [writeLoop_head]; exact hhead
  have hlook2 : getAssoc (writeLoop db seed (h0 :: rest)).1.headers hh = some headHdr := by
    rw [writeLoop_headers_notin db seed _ hh hnotin1]; exact hhdr
  have hsc2 : getAssoc (writeLoop db seed (h0 :: rest)).1.scores headHdr.hash =
      some head_score := by
    rw [writeLoop_scores_notin db seed _ _ hnotin2]; exact hsc
  have hge : ¬ head_score < seed + totalDifficulty (h0 :: rest) := by omega
  obtain ⟨hfst, hsnd⟩ :=
    persistTail_loses db fuel h0 rest seed t0 hh headHdr head_score hhead2 hlen hlook2 hsc2 hge
  rw [hP]
  refine ⟨hfst, ?_, ?_, ?_⟩
  · rw [hsnd, writeLoop_canonical]
  · rw [hsnd, writeLoop_head, hhead]
  · intro h hmem
    rw [hsnd]
    constructor
    · exact writeLoop_mem_lookup db seed _ hnd h hmem
    · obtain ⟨⟨i, hi⟩, hig⟩ := List.mem_iff_get.mp hmem
      rw [← hig, writeLoop_scores_at db seed _ hnd i hi]
      rfl

theorem headerdb_C3_witness :
    (persist_header_chain dbGAB 5 [hdrA2]).1 = .ok ([], []) ∧
    (persist_header_chain dbGAB 5 [hdrA2]).2.1.canonical = dbGAB.canonical ∧
    (persist_header_chain dbGAB 5 [hdrA2]).2.1.head = dbGAB.head ∧
    (∀ h ∈ [hdrA2],
      getAssoc (persist_header_chain dbGAB 5 [hdrA2]).2.1.headers h.hash = some h ∧
      (getAssoc (persist_header_chain dbGAB 5 [hdrA2]).2.1.scores h.hash).isSome = true) :=
  headerdb_C3 dbGAB 5 hdrA2 [] 17 (hashOf 3) hdrB 58
    (by show List.Chain' (fun p c => p.hash = c.parent_hash) [hdrA2]; simp)
    (Or.inr ⟨by decide, by decide, by decide, by decide⟩)
    (by decide) (by decide) (by decide) (by decide)
    (by decide) (by decide) (by decide) (by decide)

theorem totalDifficulty_take_succ (hs : List BlockHeader) :
    ∀ i, (hi : i < hs.length) →
      totalDifficulty (hs.take (i + 1)) =
        totalDifficulty (hs.take i) + (hs.get ⟨i, hi⟩).difficulty := by
  induction hs with
  | nil => intro i hi; simp at hi
  | cons h t ih =>
    intro i hi
    cases i with
    | zero => simp [totalDifficulty]
    | succ j =>
      have hj : j < t.length := by simpa using hi
      have hstep := ih j hj
      simp only [List.take_succ_cons, totalDifficulty, List.map_cons, List.sum_cons,
        List.get_cons_succ] at hstep ⊢
      omega

/-- Whatever the head decision does, the score namespace after the tail of
persist_header_chain is exactly what the write loop produced. -/
theorem persistTail_scores (db : DB) (fuel : Nat) (h0 : BlockHeader) (rest : List BlockHeader)
    (seed : Nat) (t0 : List DBOp) :
    (persistTail db fuel h0 rest seed t0).2.1.scores =
      (writeLoop db seed (h0 :: rest)).1.scores := by
  cases hch : get_canonical_head (writeLoop db seed (h0 :: rest)).1 with
  | mk res th =>
    cases res with
    | error e =>
      cases e <;> simp [persistTail, hch, (switch_preserves _ fuel _).2]
    | ok headHdr =>
      cases hgs : get_score (writeLoop db seed (h0 :: rest)).1 headHdr.hash with
      | mk res2 ts =>
        cases res2 with
        | error e => simp [persistTail, hch, hgs]
        | ok sc =>
          by_cases hlt : sc < (writeLoop db seed (h0 :: rest)).2.1 <;>
            simp [persistTail, hch, hgs, hlt, (switch_preserves _ fuel _).2]

/-- Claim C4: after a successful persist_header_chain, every persisted header
with the all-zero parent hash has score equal to its own difficulty, and
every other persisted header has score equal to its parent's score plus its
own difficulty; the score strictly increases from parent to child whenever
the difficulty is positive. -/
theorem headerdb_C4 (db : DB) (fuel : Nat) (h0 : BlockHeader) (rest : List BlockHeader)
    (seed : Nat) (r : List BlockHeader × List BlockHeader)
    (hcont : contiguousChain (h0 :: rest))
    (hanch : anchorOk db h0 seed)
    (hnd : ((h0 :: rest).map BlockHeader.hash).Nodup)
    (hpar : h0.parent_hash ∉ (h0 :: rest).map BlockHeader.hash)
    (hgen : ∀ h ∈ (h0 :: rest), h.hash ≠ GENESIS_PARENT_HASH)
    (hok : (persist_header_chain db fuel (h0 :: rest)).1 = .ok r) :
    ∀ h ∈ (h0 :: rest),
      (h.parent_hash = GENESIS_PARENT_HASH →
        getAssoc (persist_header_chain db fuel (h0 :: rest)).2.1.scores h.hash =
          some h.difficulty) ∧
      (h.parent_hash ≠ GENESIS_PARENT_HASH →
        ∃ ps,
          getAssoc (persist_header_chain db fuel (h0 :: rest)).2.1.scores h.parent_hash =
            some ps ∧
          getAssoc (persist_header_chain db fuel (h0 :: rest)).2.1.scores h.hash =
            some (ps + h.difficulty) ∧
          (0 < h.difficulty → ps < ps + h.difficulty)) := by
  obtain ⟨t0, hP⟩ :=
    persist_anchored db fuel h0 rest seed ((checkContiguous_ok_iff _).mpr hcont) hanch
  have hscores : (persist_header_chain db fuel (h0 :: rest)).2.1.scores =
      (writeLoop db seed (h0 :: rest)).1.scores := by
    rw [hP]; exact persistTail_scores db fuel h0 rest seed t0
  have hchain := (List.chain'_iff_get.mp hcont)
  intro h hmem
  obtain ⟨⟨i, hi⟩, hig⟩ := List.mem_iff_get.mp hmem
  constructor
  · intro hg
    cases i with
    | zero =>
      have hh0 : h = h0 := by simpa using hig.symm
      subst hh0
      have hseed : seed = 0 := by
        rcases hanch with ⟨-, hs0⟩ | ⟨hne, -⟩
        · exact hs0
        · exact absurd hg hne
      have hw := writeLoop_scores_at db seed (h :: rest) hnd 0 hi
      simp only [List.get] at hw
      rw [hscores, hw, hseed]
      simp [totalDifficulty]
    | succ j =>
      exfalso
      have hj : j < (h0 :: rest).length - 1 := by
        simp only [List.length_cons] at hi ⊢
        omega
      have hlink := hchain j hj
      have hprevmem : (h0 :: rest).get ⟨j, by omega⟩ ∈ (h0 :: rest) := List.get_mem _ _ _
      have hprevne := hgen _ hprevmem
      rw [hig] at hlink
      exact hprevne (hlink.trans hg)
  · intro hg
    cases i with
    | zero =>
      have hh0 : h = h0 := by simpa using hig.symm
      subst hh0
      rcases hanch with ⟨hpg, -⟩ | ⟨hne, hlen, hsome, hsc⟩
      · exact absurd hpg hg
      refine ⟨seed, ?_, ?_, fun hd => by omega⟩
      · rw [hscores, writeLoop_scores_notin db seed _ _ hpar]
        exact hsc
      · have hw := writeLoop_scores_at db seed (h :: rest) hnd 0 hi
        simp only [List.get] at hw
        rw [hscores, hw]
        simp [totalDifficulty]
    | succ j =>
      have hj2 : j < (h0 :: rest).length := by
        simp only [List.length_cons] at hi ⊢
        omega
      have hj : j < (h0 :: rest).length - 1 := by
        simp only [List.length_cons] at hi ⊢
        omega
      have hlink := hchain j hj
      have hwown := writeLoop_scores_at db seed (h0 :: rest) hnd (j + 1) hi
      have hwpar := writeLoop_scores_at db seed (h0 :: rest) hnd j hj2
      refine ⟨seed + totalDifficulty ((h0 :: rest).take (j + 1)), ?_, ?_, fun hd => by omega⟩
      · rw [hscores]
        have hph : h.parent_hash = ((h0 :: rest).get ⟨j, hj2⟩).hash := by
          rw [← hig]
          exact hlink.symm
        rw [hph, hwpar]
      · rw [hscores, ← hig, hwown, totalDifficulty_take_succ (h0 :: rest) (j + 1) hi]
        exact congrArg some (by omega)

theorem headerdb_C4_witness :
    getAssoc (persist_header_chain dbGAB 5 [hdrA2, hdrB2]).2.1.scores hdrB2.parent_hash =
      some 27 ∧
    getAssoc (persist_header_chain dbGAB 5 [hdrA2, hdrB2]).2.1.scores hdrB2.hash =
      some 37 ∧ 27 < 37 := by
  obtain ⟨ps, h1, h2, h3⟩ :=
    (headerdb_C4 dbGAB 5 hdrA2 [hdrB2] 17 ([], [])
      (by show List.Chain' (fun p c => p.hash = c.parent_hash) [hdrA2, hdrB2]
          exact List.chain'_cons.mpr ⟨by decide, by simp⟩)
      (Or.inr ⟨by decide, by decide, by decide, by decide⟩)
      (by decide) (by decide) (by decide) (by decide)
      hdrB2 (by decide)).2 (by decide)
  have hps : ps = 27 := by
    have hsome : some ps = some 27 := by rw [← h1]; decide
    exact Option.some.inj hsome
  subst hps
  exact ⟨h1, by simpa using h2, by omega⟩

/-- Claim C7: when no head is set, persist_header_chain reduces directly to
the canonical switch at the submitted tip (no head-score read, no score
comparison), and a successful switch sets the head to the tip's hash; in
particular a single genesis header persisted into an empty database returns
((genesis,), ()) and sets the head to its hash. -/
theorem headerdb_C7 (db : DB) (fuel : Nat) (h0 : BlockHeader) (rest : List BlockHeader)
    (seed : Nat) (g : BlockHeader) (fuel2 : Nat) :
    (contiguousChain (h0 :: rest) → anchorOk db h0 seed → db.head = none →
      ((persist_header_chain db fuel (h0 :: rest)).1 =
        (set_as_canonical_chain_head (writeLoop db seed (h0 :: rest)).1 fuel
          ((h0 :: rest).getLast (List.cons_ne_nil h0 rest)).hash).1 ∧
      (persist_header_chain db fuel (h0 :: rest)).2.1 =
        (set_as_canonical_chain_head (writeLoop db seed (h0 :: rest)).1 fuel
          ((h0 :: rest).getLast (List.cons_ne_nil h0 rest)).hash).2.1 ∧
      ∀ r2 db3 t3,
        set_as_canonical_chain_head (writeLoop db seed (h0 :: rest)).1 fuel
          ((h0 :: rest).getLast (List.cons_ne_nil h0 rest)).hash = (.ok r2, db3, t3) →
        db3.head = some ((h0 :: rest).getLast (List.cons_ne_nil h0 rest)).hash)) ∧
    (g.parent_hash = GENESIS_PARENT_HASH → g.hash.length = 32 →
      (persist_header_chain emptyDB (fuel2 + 1) [g]).1 = .ok ([g], []) ∧
      (persist_header_chain emptyDB (fuel2 + 1) [g]).2.1.head = some g.hash) := by
  constructor
  · intro hcont hanch hhead
    obtain ⟨t0, hP⟩ :=
      persist_anchored db fuel h0 rest seed ((checkContiguous_ok_iff _).mpr hcont) hanch
    have hwin : headWins (writeLoop db seed (h0 :: rest)).1
        (seed + totalDifficulty (h0 :: rest)) :=
      Or.inl (by rw [writeLoop_head]; exact hhead)
    obtain ⟨hfst, hsnd⟩ := persistTail_wins db fuel h0 rest seed t0 hwin
    refine ⟨by rw [hP]; exact hfst, by rw [hP]; exact hsnd, ?_⟩
    intro r2 db3 t3 hsw
    obtain ⟨hdr, anc, hfetch, hwalk, hr1, hdisp, hh3, -, -, -⟩ := switch_ok hsw
    obtain ⟨hlook, -⟩ := get_block_header_fst_ok hfetch
    have hlast := writeLoop_getLast db seed (h0 :: rest) (List.cons_ne_nil h0 rest)
    rw [hlook] at hlast
    have hteq : hdr = (h0 :: rest).getLast (List.cons_ne_nil h0 rest) := by
      exact Option.some.inj hlast
    rw [hh3, hteq]
  · intro hg hlen
    have h1 : persist_header_chain emptyDB (fuel2 + 1) [g] =
        persistTail emptyDB (fuel2 + 1) g [] 0 [] := by
      simp [persist_header_chain, checkContiguous, hg]
    constructor
    · rw [h1]
      simp [persistTail, writeLoop, emptyDB, setAssoc, get_canonical_head,
        set_as_canonical_chain_head, get_block_header_by_hash, validate_word, hlen,
        getAssoc, find_new_ancestors, get_canonical_block_header_by_number,
        get_canonical_block_hash, withTrace, hg, findDisplaced, addLookups,
        add_block_number_to_hash_lookup, List.getLast]
    · rw [h1]
      simp [persistTail, writeLoop, emptyDB, setAssoc, get_canonical_head,
        set_as_canonical_chain_head, get_block_header_by_hash, validate_word, hlen,
        getAssoc, find_new_ancestors, get_canonical_block_header_by_number,
        get_canonical_block_hash, withTrace, hg, findDisplaced, addLookups,
        add_block_number_to_hash_lookup, List.getLast]

theorem headerdb_C7_witness :
    (persist_header_chain emptyDB 4 [hdrG]).1 = .ok ([hdrG], []) ∧
    (persist_header_chain emptyDB 4 [hdrG]).2.1.head = some hdrG.hash :=
  (headerdb_C7 emptyDB 4 hdrG [] 0 hdrG 3).2 (by decide) (by decide)

/-- Claim C1: on a non-empty contiguous chain whose tip wins the head
decision (no head set, or tip score strictly above the head score), the first
returned tuple of persist_header_chain is exactly the spec-side path from the
submitted tip down to (excluding) the first ancestor whose hash equals the
canonical hash at its number, or down to (including) the genesis-parent
header, reversed into ascending order; on a number-coherent store the result
is strictly ascending by block number. -/
theorem headerdb_C1 (db : DB) (fuel : Nat) (h0 : BlockHeader) (rest : List BlockHeader)
    (seed : Nat) (r : List BlockHeader × List BlockHeader)
    (hkey : hashKeyed db)
    (hcont : contiguousChain (h0 :: rest))
    (hanch : anchorOk db h0 seed)
    (hwin : headWins (writeLoop db seed (h0 :: rest)).1 (seed + totalDifficulty (h0 :: rest)))
    (hok : (persist_header_chain db fuel (h0 :: rest)).1 = .ok r) :
    (∃ l, specNewPath (writeLoop db seed (h0 :: rest)).1 fuel
        ((h0 :: rest).getLast (List.cons_ne_nil h0 rest)) = some l ∧ r.1 = l.reverse) ∧
    (numberCoherent (writeLoop db seed (h0 :: rest)).1 →
      List.Chain' (fun a b => a.block_number < b.block_number) r.1) := by
  obtain ⟨t0, hP⟩ :=
    persist_anchored db fuel h0 rest seed ((checkContiguous_ok_iff _).mpr hcont) hanch
  obtain ⟨hfst, hsnd⟩ := persistTail_wins db fuel h0 rest seed t0 hwin
  rw [hP, hfst] at hok
  cases hsw : set_as_canonical_chain_head (writeLoop db seed (h0 :: rest)).1 fuel
      ((h0 :: rest).getLast (List.cons_ne_nil h0 rest)).hash with
  | mk res s2 =>
    obtain ⟨db3, t3⟩ := s2
    rw [hsw] at hok
    simp only [] at hok
    subst hok
    obtain ⟨hdr, anc, hfetch, hwalk, hr1, hdisp, hh3, hhd, hsc3, hcn3⟩ := switch_ok hsw
    obtain ⟨hlook, -⟩ := get_block_header_fst_ok hfetch
    have hlast := writeLoop_getLast db seed (h0 :: rest) (List.cons_ne_nil h0 rest)
    have hdteq : hdr = (h0 :: rest).getLast (List.cons_ne_nil h0 rest) := by
      rw [hlast] at hlook
      exact (Option.some.inj hlook).symm
    subst hdteq
    have hk2 : hashKeyed (writeLoop db seed (h0 :: rest)).1 :=
      writeLoop_hashKeyed db seed _ hkey
    refine ⟨⟨anc, find_eq_spec _ hk2 fuel _ anc hlast hwalk, hr1⟩, ?_⟩
    intro hnum
    have hchain := find_chain _ hk2 hnum fuel _ anc hlast hwalk
    rw [hr1, List.chain'_reverse]
    exact List.Chain'.imp (fun a b hab => by simp only [flip]; omega) hchain

theorem headerdb_C1_witness :
    (∃ l, specNewPath (writeLoop dbFork 37 [hdrC2]).1 6
        ([hdrC2].getLast (List.cons_ne_nil hdrC2 [])) = some l ∧
      persistWinResultC1.1 = l.reverse) ∧
    (numberCoherent (writeLoop dbFork 37 [hdrC2]).1 →
      List.Chain' (fun a b => a.block_number < b.block_number) persistWinResultC1.1) := by
  exact headerdb_C1 dbFork 6 hdrC2 [] 37 persistWinResultC1
    (by intro p hp
        simp [dbFork] at hp
        rcases hp with rfl | rfl | rfl | rfl | rfl <;> rfl)
    (by show List.Chain' (fun p c => p.hash = c.parent_hash) [hdrC2]
        simp)
    (Or.inr ⟨by decide, by decide, by decide, by decide⟩)
    (Or.inr ⟨hashOf 3, hdrB, 58, by decide, by decide, by decide, by decide, by decide⟩)
    (by decide)

/-- Claim C2: on a winning persist, the second returned tuple is the
spec-side displaced list (old canonical header at each new header's number,
stopping at the first unmapped number), it is never longer than the new list,
it is index-parallel by block number when canonical mappings carry the mapped
number, and it is strictly ascending by block number on a number-coherent
store. -/
theorem headerdb_C2 (db : DB) (fuel : Nat) (h0 : BlockHeader) (rest : List BlockHeader)
    (seed : Nat) (r : List BlockHeader × List BlockHeader)
    (hkey : hashKeyed db)
    (hcont : contiguousChain (h0 :: rest))
    (hanch : anchorOk db h0 seed)
    (hwin : headWins (writeLoop db seed (h0 :: rest)).1 (seed + totalDifficulty (h0 :: rest)))
    (hok : (persist_header_chain db fuel (h0 :: rest)).1 = .ok r) :
    specDisplaced (writeLoop db seed (h0 :: rest)).1 r.1 = some r.2 ∧
    r.2.length ≤ r.1.length ∧
    (canonicalNumbered (writeLoop db seed (h0 :: rest)).1 →
      (∀ i, (hi : i < r.2.length) → (hi2 : i < r.1.length) →
        (r.2.get ⟨i, hi⟩).block_number = (r.1.get ⟨i, hi2⟩).block_number) ∧
      (numberCoherent (writeLoop db seed (h0 :: rest)).1 →
        List.Chain' (fun a b => a.block_number < b.block_number) r.2)) := by
  obtain ⟨t0, hP⟩ :=
    persist_anchored db fuel h0 rest seed ((checkContiguous_ok_iff _).mpr hcont) hanch
  obtain ⟨hfst, hsnd⟩ := persistTail_wins db fuel h0 rest seed t0 hwin
  rw [hP, hfst] at hok
  cases hsw : set_as_canonical_chain_head (writeLoop db seed (h0 :: rest)).1 fuel
      ((h0 :: rest).getLast (List.cons_ne_nil h0 rest)).hash with
  | mk res s2 =>
    obtain ⟨db3, t3⟩ := s2
    rw [hsw] at hok
    simp only [] at hok
    subst hok
    obtain ⟨hdr, anc, hfetch, hwalk, hr1, hdisp, hh3, hhd, hsc3, hcn3⟩ := switch_ok hsw
    obtain ⟨hlook, -⟩ := get_block_header_fst_ok hfetch
    have hlast := writeLoop_getLast db seed (h0 :: rest) (List.cons_ne_nil h0 rest)
    have hdteq : hdr = (h0 :: rest).getLast (List.cons_ne_nil h0 rest) := by
      rw [hlast] at hlook
      exact (Option.some.inj hlook).symm
    subst hdteq
    have hk2 : hashKeyed (writeLoop db seed (h0 :: rest)).1 :=
      writeLoop_hashKeyed db seed _ hkey
    have hlen2 : r.2.length ≤ r.1.length := by
      rw [hr1]
      simpa using findDisplaced_len _ _ _ hdisp
    refine ⟨by rw [hr1]; exact findDisplaced_eq_spec _ _ _ hdisp, hlen2, ?_⟩
    intro hcn
    have hpar : ∀ i, (hi : i < r.2.length) → (hi2 : i < r.1.length) →
        (r.2.get ⟨i, hi⟩).block_number = (r.1.get ⟨i, hi2⟩).block_number := by
      intro i hi hi2
      have hi3 : i < anc.reverse.length := by rw [← hr1]; exact hi2
      have := findDisplaced_numbers _ hcn anc.reverse r.2 hdisp i hi hi3
      rw [this]
      exact congrArg BlockHeader.block_number (List.get_of_eq hr1 ⟨i, hi2⟩).symm
    refine ⟨hpar, ?_⟩
    intro hnum
    have hchain1 : List.Chain' (fun a b => a.block_number < b.block_number) r.1 := by
      have hchain := find_chain _ hk2 hnum fuel _ anc hlast hwalk
      rw [hr1, List.chain'_reverse]
      exact List.Chain'.imp (fun a b hab => by simp only [flip]; omega) hchain
    rw [List.chain'_iff_get]
    intro i hilen
    have hi1 : i < r.2.length := by omega
    have hi2 : i + 1 < r.2.length := by omega
    have hj1 : i < r.1.length := by omega
    have hj2 : i + 1 < r.1.length := by omega
    have e1 := hpar i hi1 hj1
    have e2 := hpar (i + 1) hi2 hj2
    have hlt := List.chain'_iff_get.mp hchain1 i (by omega)
    rw [e1, e2]
    exact hlt

theorem headerdb_C2_witness :
    specDisplaced (writeLoop dbFork 37 [hdrC2]).1 persistWinResultC1.1 =
      some persistWinResultC1.2 ∧
    persistWinResultC1.2.length ≤ persistWinResultC1.1.length ∧
    (canonicalNumbered (writeLoop dbFork 37 [hdrC2]).1 →
      (∀ i, (hi : i < persistWinResultC1.2.length) →
        (hi2 : i < persistWinResultC1.1.length) →
        (persistWinResultC1.2.get ⟨i, hi⟩).block_number =
          (persistWinResultC1.1.get ⟨i, hi2⟩).block_number) ∧
      (numberCoherent (writeLoop dbFork 37 [hdrC2]).1 →
        List.Chain' (fun a b => a.block_number < b.block_number) persistWinResultC1.2)) := by
  exact headerdb_C2 dbFork 6 hdrC2 [] 37 persistWinResultC1
    (by intro p hp
        simp [dbFork] at hp
        rcases hp with rfl | rfl | rfl | rfl | rfl <;> rfl)
    (by show List.Chain' (fun p c => p.hash = c.parent_hash) [hdrC2]
        simp)
    (Or.inr ⟨by decide, by decide, by decide, by decide⟩)
    (Or.inr ⟨hashOf 3, hdrB, 58, by decide, by decide, by decide, by decide, by decide⟩)
    (by decide)

/-!  Trace lemmas for the write-ordering claim.  -/

/-- One full walk step equals the dispatch into the shared yield
continuation. -/
theorem find_succ_eq (db : DB) (fuel : Nat) (h : BlockHeader) :
    find_new_ancestors db (fuel + 1) h =
      match get_canonical_block_header_by_number db h.block_number with
      | (.error .headerNotFound, t1) => withTrace t1 (find_new_ancestors_yield db fuel h)
      | (.error e, t1) => (.error e, t1)
      | (.ok orig, t1) =>
        if orig.hash = h.hash then (.ok [], t1)
        else withTrace t1 (find_new_ancestors_yield db fuel h) := rfl

theorem filt_get_block (db : DB) (x : Hash) :
    ((get_block_header_by_hash db x).2).filter isWrite = [] := by
  by_cases hl : x.length = 32
  · cases hg : getAssoc db.headers x <;>
      simp [get_block_header_by_hash, validate_word, hl, hg, isWrite]
  · simp [get_block_header_by_hash, validate_word, hl]

theorem filt_get_score (db : DB) (x : Hash) :
    ((get_score db x).2).filter isWrite = [] := by
  cases hg : getAssoc db.scores x <;> simp [get_score, hg, isWrite]

theorem filt_header_exists (db : DB) (x : Hash) :
    ((header_exists db x).2).filter isWrite = [] := by
  by_cases hl : x.length = 32 <;> simp [header_exists, validate_word, hl, isWrite]

theorem filt_canonical_hash (db : DB) (n : Nat) :
    ((get_canonical_block_hash db n).2).filter isWrite = [] := by
  cases hg : getAssoc db.canonical n <;> simp [get_canonical_block_hash, hg, isWrite]

theorem filt_canonical_header (db : DB) (n : Nat) :
    ((get_canonical_block_header_by_number db n).2).filter isWrite = [] := by
  cases hg : getAssoc db.canonical n with
  | none => simp [get_canonical_block_header_by_number, get_canonical_block_hash, hg, isWrite]
  | some c =>
    simp [get_canonical_block_header_by_number, get_canonical_block_hash, hg, withTrace,
      isWrite, List.filter_append, filt_get_block]

theorem filt_get_head (db : DB) :
    ((get_canonical_head db).2).filter isWrite = [] := by
  cases hh : db.head with
  | none => simp [get_canonical_head, hh, isWrite]
  | some x =>
    simp [get_canonical_head, hh, withTrace, isWrite, List.filter_append, filt_get_block]

theorem filt_yield (db : DB) (fuel : Nat) (h : BlockHeader)
    (ih : ∀ h2, ((find_new_ancestors db fuel h2).2).filter isWrite = []) :
    ((find_new_ancestors_yield db fuel h).2).filter isWrite = [] := by
  by_cases hg : h.parent_hash = GENESIS_PARENT_HASH
  · simp [find_new_ancestors_yield, hg]
  · cases hfp : get_block_header_by_hash db h.parent_hash with
    | mk res t2 =>
      have h2 := filt_get_block db h.parent_hash
      rw [hfp] at h2
      cases res with
      | error e => simp [find_new_ancestors_yield, hg, hfp, h2]
      | ok parent =>
        cases hr : find_new_ancestors db fuel parent with
        | mk res2 t3 =>
          have h3 := ih parent
          rw [hr] at h3
          cases res2 <;>
            simp [find_new_ancestors_yield, hg, hfp, hr, List.filter_append, h2, h3]

theorem filt_find (db : DB) :
    ∀ (fuel : Nat) (h : BlockHeader),
      ((find_new_ancestors db fuel h).2).filter isWrite = [] := by
  intro fuel
  induction fuel with
  | zero => intro h; simp [find_new_ancestors]
  | succ fuel ih =>
    intro h
    rw [find_succ_eq]
    cases hc : get_canonical_block_header_by_number db h.block_number with
    | mk res t1 =>
      have h1 := filt_canonical_header db h.block_number
      rw [hc] at h1
      cases res with
      | error e =>
        cases e <;> simp [withTrace, List.filter_append, h1, filt_yield db fuel h ih]
      | ok orig =>
        by_cases heq : orig.hash = h.hash <;>
          simp [heq, withTrace, List.filter_append, h1, filt_yield db fuel h ih]

theorem filt_findDisplaced (db : DB) :
    ∀ (hs : List BlockHeader), ((findDisplaced db hs).2).filter isWrite = [] := by
  intro hs
  induction hs with
  | nil => simp [findDisplaced]
  | cons h rest ih =>
    cases hg : getAssoc db.canonical h.block_number with
    | none => simp [findDisplaced, get_canonical_block_hash, hg, isWrite]
    | some c =>
      cases hfc : get_block_header_by_hash db c with
      | mk res t2 =>
        have h2 := filt_get_block db c
        rw [hfc] at h2
        cases res with
        | error e =>
          simp [findDisplaced, get_canonical_block_hash, hg, hfc, isWrite,
            List.filter_append, h2]
        | ok oldHdr =>
          cases hr : findDisplaced db rest with
          | mk res2 t3 =>
            rw [hr] at ih
            cases res2 <;>
              simp [findDisplaced, get_canonical_block_hash, hg, hfc, hr, isWrite,
                List.filter_append, h2, ih]

theorem canonMap_filter (hs : List BlockHeader) :
    ((hs.map (fun h => DBOp.writeCanonical h.block_number)).filter isWrite) =
      hs.map (fun h => DBOp.writeCanonical h.block_number) := by
  induction hs with
  | nil => simp
  | cons h rest ih => simp [isWrite, ih]

theorem hsw_filter (hs : List BlockHeader) :
    (headerScoreWrites hs).filter isWrite = headerScoreWrites hs := by
  induction hs with
  | nil => simp [headerScoreWrites]
  | cons h rest ih =>
    simp [headerScoreWrites, isWrite, List.filter_append] at ih ⊢
    exact ih

/-- The writes of a canonical switch: nothing on failure, the canonical
mappings followed by the head write on success. -/
theorem switch_writes (db : DB) (fuel : Nat) (x : Hash) :
    ((set_as_canonical_chain_head db fuel x).2.2).filter isWrite = [] ∨
    ∃ ns : List Nat, ((set_as_canonical_chain_head db fuel x).2.2).filter isWrite =
      ns.map DBOp.writeCanonical ++ [DBOp.writeHead] := by
  cases hfetch : get_block_header_by_hash db x with
  | mk res t0 =>
    have h0 := filt_get_block db x
    rw [hfetch] at h0
    cases res with
    | error e =>
      cases e <;> (left; simp [set_as_canonical_chain_head, hfetch, h0])
    | ok hdr =>
      cases hw : find_new_ancestors db fuel hdr with
      | mk res1 t1 =>
        have h1 := filt_find db fuel hdr
        rw [hw] at h1
        cases res1 with
        | error e =>
          left
          simp [set_as_canonical_chain_head, hfetch, hw, List.filter_append, h0, h1]
        | ok anc =>
          cases hd : findDisplaced db anc.reverse with
          | mk res2 t2 =>
            have h2 := filt_findDisplaced db anc.reverse
            rw [hd] at h2
            cases res2 with
            | error e =>
              left
              simp [set_as_canonical_chain_head, hfetch, hw, hd, List.filter_append,
                h0, h1, h2]
            | ok olds =>
              right
              refine ⟨anc.reverse.map BlockHeader.block_number, ?_⟩
              simp [set_as_canonical_chain_head, hfetch, hw, hd, List.filter_append,
                h0, h1, h2, addLookups_trace, canonMap_filter, isWrite, List.map_map,
                Function.comp]

/-- The writes of the post-validation tail of persist_header_chain: the
per-header header/score writes, optionally followed by the canonical and head
writes of a switch. -/
theorem persistTail_writes (db : DB) (fuel : Nat) (h0 : BlockHeader) (rest : List BlockHeader)
    (seed : Nat) (t0 : List DBOp) (ht0 : t0.filter isWrite = []) :
    ((persistTail db fuel h0 rest seed t0).2.2).filter isWrite =
      headerScoreWrites (h0 :: rest) ∨
    ∃ ns : List Nat, ((persistTail db fuel h0 rest seed t0).2.2).filter isWrite =
      headerScoreWrites (h0 :: rest) ++ (ns.map DBOp.writeCanonical ++ [DBOp.writeHead]) := by
  have hwl : ((writeLoop db seed (h0 :: rest)).2.2).filter isWrite =
      headerScoreWrites (h0 :: rest) := by
    rw [writeLoop_trace]
    exact hsw_filter _
  cases hch : get_canonical_head (writeLoop db seed (h0 :: rest)).1 with
  | mk res th =>
    have hth := filt_get_head (writeLoop db seed (h0 :: rest)).1
    rw [hch] at hth
    cases res with
    | error e =>
      cases e with
      | canonicalHeadNotFound =>
        rcases switch_writes (writeLoop db seed (h0 :: rest)).1 fuel
            ((h0 :: rest).getLast (List.cons_ne_nil h0 rest)).hash with hs | ⟨ns, hs⟩
        · left
          simp [persistTail, hch, List.filter_append, ht0, hth, hwl, hs]
        · right
          refine ⟨ns, ?_⟩
          simp [persistTail, hch, List.filter_append, ht0, hth, hwl, hs]
      | validationError => left; simp [persistTail, hch, List.filter_append, ht0, hth, hwl]
      | headerNotFound => left; simp [persistTail, hch, List.filter_append, ht0, hth, hwl]
      | parentNotFound => left; simp [persistTail, hch, List.filter_append, ht0, hth, hwl]
      | valueError => left; simp [persistTail, hch, List.filter_append, ht0, hth, hwl]
      | outOfFuel => left; simp [persistTail, hch, List.filter_append, ht0, hth, hwl]
    | ok headHdr =>
      cases hgs : get_score (writeLoop db seed (h0 :: rest)).1 headHdr.hash with
      | mk res2 ts =>
        have hts := filt_get_score (writeLoop db seed (h0 :: rest)).1 headHdr.hash
        rw [hgs] at hts
        cases res2 with
        | error e =>
          left
          simp [persistTail, hch, hgs, List.filter_append, ht0, hth, hwl, hts]
        | ok sc =>
          by_cases hlt : sc < (writeLoop db seed (h0 :: rest)).2.1
          · rcases switch_writes (writeLoop db seed (h0 :: rest)).1 fuel
                ((h0 :: rest).getLast (List.cons_ne_nil h0 rest)).hash with hs | ⟨ns, hs⟩
            · left
              simp [persistTail, hch, hgs, hlt, List.filter_append, ht0, hth, hwl, hts, hs]
            · right
              refine ⟨ns, ?_⟩
              simp [persistTail, hch, hgs, hlt, List.filter_append, ht0, hth, hwl, hts, hs]
          · left
            simp [persistTail, hch, hgs, hlt, List.filter_append, ht0, hth, hwl, hts]

/-- Claim C8: in every execution of persist_header_chain, the write sequence
in the backend-operation trace is (header, score) per submitted header in
order, then optionally canonical mappings followed by the single head write;
no canonical or head write ever precedes an outstanding header or score
write. -/
theorem headerdb_C8 (db : DB) (fuel : Nat) (hs : List BlockHeader) :
    ((persist_header_chain db fuel hs).2.2).filter isWrite = [] ∨
    ∃ t : List DBOp,
      ((persist_header_chain db fuel hs).2.2).filter isWrite = headerScoreWrites hs ++ t ∧
      (t = [] ∨ ∃ ns : List Nat, t = ns.map DBOp.writeCanonical ++ [DBOp.writeHead]) := by
  cases hs with
  | nil => left; rfl
  | cons h0 rest =>
    rcases checkContiguous_cases (h0 :: rest) with hck | hck
    · by_cases hg : h0.parent_hash = GENESIS_PARENT_HASH
      · have hP : persist_header_chain db fuel (h0 :: rest) =
            persistTail db fuel h0 rest 0 [] := by
          simp [persist_header_chain, hck, hg]
        rcases persistTail_writes db fuel h0 rest 0 [] rfl with hw | ⟨ns, hw⟩
        · right
          exact ⟨[], by rw [hP]; simpa using hw, Or.inl rfl⟩
        · right
          exact ⟨ns.map DBOp.writeCanonical ++ [DBOp.writeHead], by rw [hP]; simpa using hw,
            Or.inr ⟨ns, rfl⟩⟩
      · cases hhe : header_exists db h0.parent_hash with
        | mk res t =>
          have hft := filt_header_exists db h0.parent_hash
          rw [hhe] at hft
          cases res with
          | error e =>
            left
            simp [persist_header_chain, hck, hg, hhe, hft]
          | ok b =>
            cases b with
            | false =>
              left
              simp [persist_header_chain, hck, hg, hhe, hft]
            | true =>
              cases hgs : get_score db h0.parent_hash with
              | mk res2 t2 =>
                have hft2 := filt_get_score db h0.parent_hash
                rw [hgs] at hft2
                cases res2 with
                | error e =>
                  left
                  simp [persist_header_chain, hck, hg, hhe, hgs, List.filter_append,
                    hft, hft2]
                | ok seed =>
                  have hP : persist_header_chain db fuel (h0 :: rest) =
                      persistTail db fuel h0 rest seed (t ++ t2) := by
                    simp [persist_header_chain, hck, hg, hhe, hgs]
                  have ht0 : (t ++ t2).filter isWrite = [] := by
                    simp [List.filter_append, hft, hft2]
                  rcases persistTail_writes db fuel h0 rest seed (t ++ t2) ht0 with
                    hw | ⟨ns, hw⟩
                  · right
                    exact ⟨[], by rw [hP]; simpa using hw, Or.inl rfl⟩
                  · right
                    exact ⟨ns.map DBOp.writeCanonical ++ [DBOp.writeHead],
                      by rw [hP]; simpa using hw, Or.inr ⟨ns, rfl⟩⟩
    · left
      simp [persist_header_chain, hck]

end HeaderDB
